import Mathlib

/-!
Verification development for the Zeal Disk Tool repository: a shallow
embedding, in Lean 4, of the ZealFS v2 filesystem engine
(src/include/zealfs_v2.h, src/src/zealfs/zealfs_v2.c) and of the MBR
partition editor (src/src/disk.c), together with theorems settling the
specification claims about them.

Machine integers are modelled as `Nat` with explicit `% 2^w` reductions at
the points where the C code stores into a fixed-width field.  The partition
byte store is modelled as a function `Nat → Nat` (byte address to byte
value); the session caches (header, FAT) are modelled as explicit record
fields, mirroring `zealfs_context_t`.
-/

set_option maxRecDepth 100000

namespace ZealDiskTool

/-- Number of one bits in a byte (values 0..255); used to state the
bitmap population-count invariant.  For `v < 256` this is the popcount. -/
def byteOnes (v : Nat) : Nat :=
  v % 2 + v / 2 % 2 + v / 4 % 2 + v / 8 % 2 +
  v / 16 % 2 + v / 32 % 2 + v / 64 % 2 + v / 128 % 2

/-- The on-disk/in-cache ZealFS v2 partition header, mirroring
`zealfs_header_t` (packed: magic, version, u16 bitmap_size, u16 free_pages,
u8 page_size code, then the allocation bitmap bytes). -/
structure zealfs_header_t where
  magic : Nat
  version : Nat
  bitmap_size : Nat
  free_pages : Nat
  page_size : Nat
  pages_bitmap : List Nat
deriving DecidableEq, Repr

/-- `get_page_size`: page size in bytes is `256 << header->page_size`. -/
def get_page_size (h : zealfs_header_t) : Nat :=
  256 <<< h.page_size

/-- `get_fs_header_size`: `sizeof(zealfs_header_t) + bitmap_size` (packed
header is 7 bytes) rounded up to the next multiple of 32. -/
def get_fs_header_size (h : zealfs_header_t) : Nat :=
  (7 + h.bitmap_size + 31) / 32 * 32

/-- `zealfsv2_page_size`: the page-size table on the partition size. -/
def zealfsv2_page_size (part_size : Nat) : Nat :=
  if part_size ≤ 64 * 1024 then 256
  else if part_size ≤ 256 * 1024 then 512
  else if part_size ≤ 1048576 then 1024
  else if part_size ≤ 4 * 1048576 then 2048
  else if part_size ≤ 16 * 1048576 then 4096
  else if part_size ≤ 64 * 1048576 then 8192
  else if part_size ≤ 256 * 1048576 then 16384
  else if part_size ≤ 1073741824 then 32768
  else 65536

/-- Bit length of a value (with fuel, so that it evaluates by kernel
reduction): `bitsAux 32 n` is `floor(log2 n) + 1` for `1 ≤ n < 2^32`. -/
def bitsAux : Nat → Nat → Nat
  | 0, _ => 0
  | fuel + 1, n => if n = 0 then 0 else bitsAux fuel (n / 2) + 1

/-- `__builtin_clz` on a 32-bit value (only used on nonzero arguments). -/
def clz32 (n : Nat) : Nat := 32 - bitsAux 32 n

/-- `fat_pages_count` as computed by the formatter: 1 page when the page
size is 256 bytes, 2 pages otherwise. -/
def fat_pages_of (page_size_bytes : Nat) : Nat :=
  1 + (if page_size_bytes = 256 then 0 else 1)

/-- `zealfsv2_format`: builds the fresh header the formatter writes at the
start of a partition of `size` bytes.  The 16-bit header fields store the
computed values reduced mod 2^16 (and the `free_pages` subtraction wraps in
64-bit arithmetic first, as in C).  The bitmap region is byte 0 as written
by the code followed by zeros (the buffer being formatted is calloc'ed by
the callers in src/src/disk.c). -/
def zealfsv2_format (size : Nat) : zealfs_header_t :=
  let page_size_bytes := zealfsv2_page_size size
  let fat_pages_count := fat_pages_of page_size_bytes
  let bitmap_bytes := size / page_size_bytes / 8 % 65536
  { magic := 90   -- ASCII 'Z'
    version := 2
    page_size := 32 - clz32 (page_size_bytes >>> 8) - 1
    bitmap_size := bitmap_bytes
    free_pages := (size / page_size_bytes + (2 ^ 64 - 1 - fat_pages_count)) % 2 ^ 64 % 65536
    pages_bitmap := (3 ||| (if fat_pages_count > 1 then 4 else 0)) :: List.replicate (bitmap_bytes - 1) 0 }

/-- First byte of a list that differs from 0xFF, together with its index:
the scan loop at the head of `allocate_page`. -/
def findFreeByte : List Nat → Option (Nat × Nat)
  | [] => none
  | v :: rest =>
    if v ≠ 255 then some (0, v)
    else
      match findFreeByte rest with
      | none => none
      | some (i, w) => some (i + 1, w)

/-- The `while ((value & 1) != 0)` scan of `allocate_page`, with enough
fuel for any byte value. -/
def lcbAux : Nat → Nat → Nat
  | 0, _ => 0
  | fuel + 1, v => if v % 2 = 1 then lcbAux fuel (v / 2) + 1 else 0

/-- Lowest clear bit of a byte (correct for `v < 256`, `v ≠ 255`). -/
def lowestClearBit (v : Nat) : Nat := lcbAux 8 v

/-- `allocate_page`: linear scan for the first bitmap byte below 0xFF,
set its lowest clear bit, decrement `free_pages` (16-bit wrap), and return
`byte_index * 8 + bit_index`; returns page 0 (the error sentinel) with the
header untouched when every byte in the bitmap region is 0xFF. -/
def allocate_page (h : zealfs_header_t) : zealfs_header_t × Nat :=
  match findFreeByte (h.pages_bitmap.take h.bitmap_size) with
  | none => (h, 0)
  | some (i, v) =>
    let b := lowestClearBit v
    ({ h with
        pages_bitmap := h.pages_bitmap.set i (v ||| 1 <<< b)
        free_pages := (h.free_pages + 65535) % 65536 }, i * 8 + b)

/-- `free_page`: clear the page's bitmap bit (`&= ~(1 << (page % 8))` on a
byte) and increment `free_pages` (16-bit wrap). -/
def free_page (h : zealfs_header_t) (page : Nat) : zealfs_header_t :=
  { h with
      pages_bitmap := h.pages_bitmap.set (page / 8)
        ((h.pages_bitmap.getD (page / 8) 0) &&& (255 ^^^ 1 <<< (page % 8)))
      free_pages := (h.free_pages + 1) % 65536 }

/-- Bit of the allocation bitmap for page `p` (1 = allocated). -/
def bitGet (h : zealfs_header_t) (p : Nat) : Bool :=
  Nat.testBit (h.pages_bitmap.getD (p / 8) 0) (p % 8)

/-- Population count of the bitmap region (the first `bitmap_size` bytes
of the bitmap array). -/
def popcountH (h : zealfs_header_t) : Nat :=
  ((h.pages_bitmap.take h.bitmap_size).map byteOnes).sum

/-! ### Session state: the `zealfs_context_t` caches over a partition byte store -/

/-- A mounted ZealFS session: the partition bytes (as seen through the
context's read/write thunks, byte address to byte value), plus the header
cache, FAT cache, and cached FAT byte length of `zealfs_context_t`.
The model represents an already mounted session (`check_header` done). -/
structure zealfs_state where
  disk : Nat → Nat
  header : zealfs_header_t
  fat : Nat → Nat
  fat_size : Nat

/-- In-memory directory entry, mirroring the packed 32-byte
`zealfs_entry_t` (flags, 16-byte name, u16 start_page, u32 size, 9 bytes
of BCD date fields). -/
structure zealfs_entry_t where
  flags : Nat
  name : List Nat
  start_page : Nat
  size : Nat
  time : List Nat
deriving DecidableEq, Repr

/-- `zealfs_fd_t`: an open handle is the entry value plus its on-disk
address. -/
structure zealfs_fd_t where
  entry : zealfs_entry_t
  entry_addr : Nat
deriving DecidableEq, Repr

def le16 (n : Nat) : List Nat := [n % 256, n / 256 % 256]

def le32 (n : Nat) : List Nat :=
  [n % 256, n / 256 % 256, n / 65536 % 256, n / 16777216 % 256]

/-- The 32 bytes of a directory entry as stored on disk. -/
def entryBytes (e : zealfs_entry_t) : List Nat :=
  e.flags % 256 :: ((e.name.map (· % 256) ++ List.replicate 16 0).take 16
    ++ le16 e.start_page ++ le32 e.size
    ++ (e.time.map (· % 256) ++ List.replicate 9 0).take 9)

/-- Overwrite `len` bytes of the byte store starting at `addr` with bytes
drawn from `src` (a `ctx->write` call). -/
def writeRange (d : Nat → Nat) (addr len : Nat) (src : Nat → Nat) : Nat → Nat :=
  fun a => if addr ≤ a ∧ a < addr + len then src (a - addr) else d a

/-- Read `len` bytes of the byte store starting at `addr` (a `ctx->read`
call). -/
def readRange (d : Nat → Nat) (addr len : Nat) : List Nat :=
  (List.range len).map (fun i => d (addr + i))

/-- Byte `i` of the serialized header cache, as written back by flush:
magic, version, little-endian u16 bitmap_size, little-endian u16
free_pages, page-size code, then the bitmap.  (The up-to-31 padding bytes
that round the header up to a 32-byte boundary are modelled as 0.) -/
def headerByte (h : zealfs_header_t) (i : Nat) : Nat :=
  if i = 0 then h.magic % 256
  else if i = 1 then h.version % 256
  else if i = 2 then h.bitmap_size % 256
  else if i = 3 then h.bitmap_size / 256 % 256
  else if i = 4 then h.free_pages % 256
  else if i = 5 then h.free_pages / 256 % 256
  else if i = 6 then h.page_size % 256
  else h.pages_bitmap.getD (i - 7) 0

/-- Byte `i` of the serialized FAT cache (an array of little-endian u16
next-page values). -/
def fatByte (fat : Nat → Nat) (i : Nat) : Nat :=
  if i % 2 = 0 then fat (i / 2) % 256 else fat (i / 2) / 256 % 256

/-- `set_next_in_fat`: store a 16-bit next-page value in the FAT cache. -/
def updFat (fat : Nat → Nat) (p v : Nat) : Nat → Nat :=
  fun x => if x = p then v % 65536 else fat x

def get_root_dir_addr (h : zealfs_header_t) : Nat := get_fs_header_size h

def get_dir_max_entries (h : zealfs_header_t) : Nat := get_page_size h / 32

def get_root_dir_max_entries (h : zealfs_header_t) : Nat :=
  (get_page_size h - get_fs_header_size h) / 32

/-- `zealfs_free_space`: `free_pages * page_size`. -/
def zealfs_free_space (fs : zealfs_state) : Nat :=
  fs.header.free_pages * get_page_size fs.header

/-- `allocate_next`: allocate a page and link it after `current` in the
FAT; page number 0 from the allocator means no space. -/
def allocate_next (fs : zealfs_state) (current : Nat) :
    Except Int (zealfs_state × Nat) :=
  let r := allocate_page fs.header
  if r.2 = 0 then .error (-28)
  else .ok ({ fs with header := r.1, fat := updFat fs.fat current r.2 }, r.2)

/-- The `while (jump_pages)` loop of `zealfs_write`: follow the FAT,
allowing a one-step grow at the end of the chain; a longer seek into
unallocated territory is `-ESPIPE` (-29). -/
def writeJump (fs : zealfs_state) (current : Nat) : Nat → Except Int (zealfs_state × Nat)
  | 0 => .ok (fs, current)
  | j + 1 =>
    let next := fs.fat current
    if next ≠ 0 then writeJump fs next j
    else if j ≠ 0 then .error (-29)
    else
      match allocate_next fs current with
      | .error e => .error e
      | .ok (fs', q) => writeJump fs' q j

/-- One chunk write of the `zealfs_write` loop: `count` bytes of `buf`
(starting at `bufpos`) stored at offset `oip` inside page `current`. -/
def chunkState (ps : Nat) (fs : zealfs_state) (current oip count : Nat)
    (buf : Nat → Nat) (bufpos : Nat) : zealfs_state :=
  { fs with disk := writeRange fs.disk (current * ps + oip) count (fun i => buf (bufpos + i)) }

/-- The `while (size)` loop of `zealfs_write`.  `fuel` bounds the number
of iterations (each iteration of the C loop writes at least one byte, so
`fuel = size` suffices on every reachable call); running out of fuel,
which cannot happen on those calls, reports `-EIO` (-5).  `esize` is the
running `fd->entry.size` accumulator (a u32).  On an error return the C
code leaves the partially updated caches behind; the model just reports
the error, and no claim inspects the state after a failed write. -/
def writeLoop (ps : Nat) : Nat → zealfs_state → Nat → (Nat → Nat) → Nat → Nat → Nat → Nat →
    Except Int (zealfs_state × Nat)
  | 0, fs, _, _, _, size, _, esize =>
    if size = 0 then .ok (fs, esize) else .error (-5)
  | fuel + 1, fs, current, buf, bufpos, size, oip, esize =>
    if size = 0 then .ok (fs, esize)
    else
      let count := min (ps - oip) size
      let fs₁ := chunkState ps fs current oip count buf bufpos
      let esize₁ := (esize + count) % 4294967296
      let next := fs₁.fat current
      if next ≠ 0 then
        writeLoop ps fuel fs₁ next buf (bufpos + count) (size - count) 0 esize₁
      else if size - count ≠ 0 then
        match allocate_next fs₁ current with
        | .error e => .error e
        | .ok (fs₂, q) => writeLoop ps fuel fs₂ q buf (bufpos + count) (size - count) 0 esize₁
      else
        writeLoop ps fuel fs₁ current buf (bufpos + count) (size - count) 0 esize₁

/-- `zealfs_write` on a mounted session: capacity check
(`free_space + bytes remaining in the landing page ≥ size`, else
`-ENOSPC` (-28)), jump to the landing page, then the chunked write loop.
Returns the updated session, the updated handle, and the byte count. -/
def zealfs_write (fs : zealfs_state) (fd : zealfs_fd_t) (buf : Nat → Nat)
    (size offset : Nat) : Except Int (zealfs_state × zealfs_fd_t × Nat) :=
  if size = 0 then .ok (fs, fd, 0)
  else
    let ps := get_page_size fs.header
    let oip := offset % ps
    if zealfs_free_space fs + (ps - oip) < size then .error (-28)
    else
      match writeJump fs fd.entry.start_page (offset / ps) with
      | .error e => .error e
      | .ok (fs₁, current) =>
        match writeLoop ps size fs₁ current buf 0 size oip fd.entry.size with
        | .error e => .error e
        | .ok (fs₂, esize) =>
          .ok (fs₂, { fd with entry := { fd.entry with size := esize } }, size)

/-- The `while (jump_pages)` loop of `zealfs_read` (a plain FAT walk). -/
def fatWalk (fat : Nat → Nat) : Nat → Nat → Nat
  | current, 0 => current
  | current, j + 1 => fatWalk fat (fat current) j

/-- The `while (size)` loop of `zealfs_read`; collects the bytes read.
As in `writeLoop`, `fuel = size` is enough on every reachable call. -/
def readLoop (ps : Nat) (d : Nat → Nat) (fat : Nat → Nat) :
    Nat → Nat → Nat → Nat → List Nat
  | 0, _, _, _ => []
  | fuel + 1, current, oip, size =>
    if size = 0 then []
    else
      let count := min (ps - oip) size
      let chunk := readRange d (current * ps + oip) count
      let current' := if size ≠ count then fat current else current
      chunk ++ readLoop ps d fat fuel current' 0 (size - count)

/-- `zealfs_read` on a mounted session: clamp the requested size to
`entry.size - offset` (computed, as in C, as a 32-bit value — the
subtraction wraps when `offset > entry.size`, which the source only
guards with a debug `assert`), walk the FAT to the landing page, read
page-sized chunks.  Returns the bytes read and the returned count. -/
def zealfs_read (fs : zealfs_state) (fd : zealfs_fd_t) (size offset : Nat) :
    List Nat × Nat :=
  if size = 0 then ([], 0)
  else
    let ps := get_page_size fs.header
    let oip := offset % ps
    let remaining := (fd.entry.size + (2 ^ 64 - offset % 2 ^ 64)) % 4294967296
    let size1 := if remaining < size then remaining else size
    let current := fatWalk fs.fat fd.entry.start_page (offset / ps)
    (readLoop ps fs.disk fs.fat size1 current oip size1, size1)

/-- `zealfs_flush`: write the entry back at `entry_addr`, then the header
(`get_fs_header_size` bytes at offset 0), then the FAT cache
(`ctx->fat_size` bytes at `ADDR_FROM_PAGE(1) = page_size`). -/
def zealfs_flush (fs : zealfs_state) (fd : zealfs_fd_t) : zealfs_state :=
  { fs with
      disk := writeRange (writeRange (writeRange fs.disk fd.entry_addr 32
          (fun i => (entryBytes fd.entry).getD i 0)) 0 (get_fs_header_size fs.header)
          (headerByte fs.header)) (get_page_size fs.header) fs.fat_size (fatByte fs.fat) }

/-- The page-chain loop of `zealfs_rmdir` (after path resolution): for
each directory page, read its entries; an occupied entry aborts with
`-ENOTEMPTY` (-39), otherwise the page is freed in the bitmap, its FAT
link cleared, and the walk continues.  The C loop mutates the session
caches as it goes, so the (possibly mutated) state is returned along with
the error, mirroring the source.  `maxe` is `get_dir_max_entries`,
computed once before the loop; `fuel` bounds the chain walk (the chain of
a well-formed directory is finite). -/
def rmdirPages (ps maxe : Nat) : Nat → zealfs_state → Nat → zealfs_state × Option Int
  | 0, fs, _ => (fs, some (-5))
  | fuel + 1, fs, current =>
    if current = 0 then (fs, none)
    else
      let page_addr := current * ps
      if (List.range maxe).any (fun i => Nat.testBit (fs.disk (page_addr + 32 * i)) 7) then
        (fs, some (-39))
      else
        let next := fs.fat current
        let fs' : zealfs_state :=
          { fs with header := free_page fs.header current, fat := updFat fs.fat current 0 }
        rmdirPages ps maxe fuel fs' next

/-- The page loop of `zealfs_readdir`.  Faithful to the source: every
iteration re-reads the entry array at `fd->entry_addr` (the loop follows
the FAT in `current_page` but never updates the address it reads from).
Returns the on-disk addresses of the entries it collects. -/
def readdirLoop (d : Nat → Nat) (fat : Nat → Nat) (entry_addr ps : Nat) :
    Nat → Nat → Nat → Nat → List Nat
  | 0, _, _, _ => []
  | fuel + 1, maxe, current, room =>
    let found := (((List.range maxe).filter
        (fun i => Nat.testBit (d (entry_addr + 32 * i)) 7)).take room).map
        (fun i => entry_addr + 32 * i)
    if room - found.length = 0 then found
    else
      let current' := fat current
      if current' = 0 then found
      else readdirLoop d fat entry_addr ps fuel (ps / 32) current' (room - found.length)

/-- `zealfs_readdir` on a mounted session: root directories have fewer
entries on their first page; subsequent pages use the full page.  Models
the collected entries by their on-disk addresses and returns the filled
count. -/
def zealfs_readdir (fuel : Nat) (fs : zealfs_state) (fd : zealfs_fd_t)
    (count : Nat) : List Nat × Nat :=
  let h := fs.header
  let ps := get_page_size h
  let maxe := if fd.entry_addr = get_root_dir_addr h
    then get_root_dir_max_entries h else get_dir_max_entries h
  let current := fd.entry_addr / ps
  let l := readdirLoop fs.disk fs.fat fd.entry_addr ps fuel maxe current count
  (l, l.length)

/-- Projection of a write result onto the returned byte count. -/
def writeTotal : Except Int (zealfs_state × zealfs_fd_t × Nat) → Option Nat
  | .ok r => some r.2.2
  | .error _ => none

/-- The claimed round-trip sequence: `write(h, buf, len, 0); flush;
read(h, out, len, 0)`, returning the bytes read back (or `none` when the
write fails). -/
def writeFlushRead (fs : zealfs_state) (fd : zealfs_fd_t) (buf : Nat → Nat)
    (len : Nat) : Option (List Nat) :=
  match zealfs_write fs fd buf len 0 with
  | .error _ => none
  | .ok (fs₁, fd₁, _) => some (zealfs_read (zealfs_flush fs₁ fd₁) fd₁ len 0).1

/-! ### Session well-formedness -/

/-- Invariants of a mounted session that the bitmap allocator relies on:
bitmap bytes are bytes, the bitmap region lies within the cache, page
numbers fit in the 16-bit FAT, `free_pages` counts exactly the clear bits
of the bitmap region, the FAT entry of every free page is 0 (true of
every state the engine reaches: the formatter zeroes the FAT pages and
every chain-freeing path clears the links), and page 0 is allocated. -/
def InvCore (fs : zealfs_state) : Prop :=
  (∀ x ∈ fs.header.pages_bitmap, x < 256) ∧
  fs.header.bitmap_size ≤ fs.header.pages_bitmap.length ∧
  8 * fs.header.bitmap_size ≤ 65536 ∧
  popcountH fs.header + fs.header.free_pages = 8 * fs.header.bitmap_size ∧
  fs.header.free_pages < 65536 ∧
  (∀ p < 8 * fs.header.bitmap_size, bitGet fs.header p = false → fs.fat p = 0) ∧
  bitGet fs.header 0 = true

/-- Full session invariant: `InvCore` plus the facts `check_header`
establishes (page-size code at most 8, the FAT cache length, the header
fitting inside page 0) and the reserved header/FAT pages being marked
allocated. -/
def SessionInv (fs : zealfs_state) : Prop :=
  InvCore fs ∧
  fs.header.page_size ≤ 8 ∧
  bitGet fs.header 1 = true ∧
  (fat_pages_of (get_page_size fs.header) = 2 → bitGet fs.header 2 = true) ∧
  fs.fat_size = fat_pages_of (get_page_size fs.header) * get_page_size fs.header ∧
  get_fs_header_size fs.header ≤ get_page_size fs.header

/-- An open handle on a freshly created file: size 0, an allocated start
page beyond the reserved header/FAT pages with no FAT successor, and a
directory entry that lives inside a single allocated directory page other
than the file's start page. -/
def FreshFd (fs : zealfs_state) (fd : zealfs_fd_t) : Prop :=
  fd.entry.size = 0 ∧
  bitGet fs.header fd.entry.start_page = true ∧
  fs.fat fd.entry.start_page = 0 ∧
  fat_pages_of (get_page_size fs.header) < fd.entry.start_page ∧
  fd.entry_addr / get_page_size fs.header ≠ fd.entry.start_page ∧
  bitGet fs.header (fd.entry_addr / get_page_size fs.header) = true ∧
  fd.entry_addr % get_page_size fs.header + 32 ≤ get_page_size fs.header

/-! ### Concrete test fixtures (small mounted sessions) -/

/-- A freshly formatted and mounted 2 KiB session (256-byte pages, eight
pages, bitmap byte 0b111: header page 0, FAT page 1 and one file page 2
allocated, 5 pages free) on which one empty file has been created. -/
def fsFix : zealfs_state :=
  { disk := fun _ => 0
    header := { magic := 90, version := 2, bitmap_size := 1, free_pages := 5,
                page_size := 0, pages_bitmap := [7] }
    fat := fun _ => 0
    fat_size := 256 }

/-- The open handle on the freshly created (empty) file of `fsFix`,
rooted at page 2, with its directory entry at root offset 32. -/
def fdFix : zealfs_fd_t :=
  { entry := { flags := 128, name := List.replicate 16 0, start_page := 2, size := 0,
               time := List.replicate 9 0 }
    entry_addr := 32 }

def bufFix : Nat → Nat := fun i => (i + 3) % 256

/-- The handle of `fdFix` after its file has grown to 300 bytes. -/
def fdSized : zealfs_fd_t :=
  { fdFix with entry := { fdFix.entry with size := 300 } }

/-- A session holding a two-page directory chain: directory pages 3 and 4
(FAT links 3 ↦ 4), page 3 entirely empty, page 4 holding one occupied
entry (flags byte 0x80 at its offset 0). -/
def fsDirFix : zealfs_state :=
  { disk := fun a => if a = 1024 then 128 else 0
    header := { magic := 90, version := 2, bitmap_size := 1, free_pages := 3,
                page_size := 0, pages_bitmap := [27] }
    fat := fun p => if p = 3 then 4 else 0
    fat_size := 256 }

/-- An open directory handle on the two-page directory of `fsDirFix`
(as set up by `zealfs_opendir`: `entry_addr = ADDR_FROM_PAGE(start)`). -/
def fdDirFix : zealfs_fd_t :=
  { entry := { flags := 129, name := List.replicate 16 0, start_page := 3, size := 256,
               time := List.replicate 9 0 }
    entry_addr := 768 }

/-! ### The MBR partition editor (src/src/disk.c) -/

/-- `partition_t`: an MBR table entry plus, for staged entries created by
the editor, the owned buffer of freshly formatted bytes.  The buffer holds
three formatted pages whose only non-zero content is the ZealFS header, so
it is modelled by the formatted header value plus the byte length
(`data_len`). -/
structure partition_t where
  active : Bool
  ptype : Nat
  start_lba : Nat
  size_sectors : Nat
  data : Option zealfs_header_t
  data_len : Nat
deriving DecidableEq, Repr

def emptyPartition : partition_t :=
  { active := false, ptype := 0, start_lba := 0, size_sectors := 0,
    data := none, data_len := 0 }

/-- The `disk_info_t` fields the editor operates on. -/
structure disk_info_t where
  valid : Bool
  has_mbr : Bool
  mbr : List Nat
  partitions : List partition_t
  has_staged_changes : Bool
  staged_mbr : List Nat
  staged_partitions : List partition_t
  free_part_idx : Int
deriving DecidableEq, Repr

def dpart (d : disk_info_t) (i : Nat) : partition_t :=
  d.staged_partitions.getD i emptyPartition

/-- `disk_parse_mbr_partitions`' per-entry decode: type byte, little-endian
start LBA and sector count, and the conservative activity rule (active iff
boot-flag bit 7, type, LBA or size is non-zero). -/
def disk_parse_mbr_entry (mbr : Nat → Nat) (i : Nat) : partition_t :=
  let e := fun k => mbr (446 + i * 16 + k)
  let t := e 4
  let lba := e 8 + 256 * e 9 + 65536 * e 10 + 16777216 * e 11
  let sz := e 12 + 256 * e 13 + 65536 * e 14 + 16777216 * e 15
  { active := (e 0 &&& 128) ≠ 0 || t ≠ 0 || lba ≠ 0 || sz ≠ 0
    ptype := t
    start_lba := lba
    size_sectors := sz
    data := none
    data_len := 0 }

/-- `disk_write_mbr_entry`: the 16 bytes encoding a partition entry (boot
flag written as 0, CHS bytes canonicalised to 0xFF, type, little-endian
LBA and sector count). -/
def disk_write_mbr_entry (p : partition_t) : List Nat :=
  [0, 255, 255, 255, p.ptype % 256, 255, 255, 255,
   p.start_lba % 256, p.start_lba / 256 % 256,
   p.start_lba / 65536 % 256, p.start_lba / 16777216 % 256,
   p.size_sectors % 256, p.size_sectors / 256 % 256,
   p.size_sectors / 65536 % 256, p.size_sectors / 16777216 % 256]

/-- Store a list of bytes into a byte list at `addr` (the memcpy-style
writes into the staged 512-byte MBR). -/
def setBytes : List Nat → Nat → List Nat → List Nat
  | l, _, [] => l
  | l, addr, b :: rest => setBytes (l.set addr b) (addr + 1) rest

/-- `disk_find_free_partition`: on an MBR-less disk only slot 0 is usable;
otherwise the first inactive staged slot, or -1. -/
def disk_find_free_partition (d : disk_info_t) : Int :=
  if !d.has_mbr then (if (dpart d 0).active then -1 else 0)
  else
    match (List.range 4).find? (fun i => !(dpart d i).active) with
    | some i => (i : Int)
    | none => -1

/-- `disk_allocate_partition`: stage a new ZealFS partition in the free
slot, encode it into the staged MBR, and attach a freshly formatted
three-page buffer. -/
def disk_allocate_partition (d : disk_info_t) (lba sectors_count : Nat) : disk_info_t :=
  if !d.valid then d
  else if d.free_part_idx = -1 ∨ (!d.has_mbr ∧ 0 < d.free_part_idx) then d
  else if d.free_part_idx < 0 ∨ 4 ≤ d.free_part_idx then d
  else
    let idx := d.free_part_idx.toNat
    let part_size := sectors_count * 512
    let page_size := zealfsv2_page_size part_size
    let p : partition_t :=
      { active := true, ptype := 0x5a, start_lba := lba, size_sectors := sectors_count,
        data := some (zealfsv2_format part_size), data_len := page_size * 3 }
    let d' : disk_info_t :=
      { d with has_staged_changes := true
               staged_partitions := d.staged_partitions.set idx p
               staged_mbr := setBytes d.staged_mbr (446 + idx * 16) (disk_write_mbr_entry p) }
    { d' with free_part_idx := disk_find_free_partition d' }

/-- `disk_format_partition`: replace the staged slot's buffer with a fresh
three-page format; leaves the LBA and size untouched. -/
def disk_format_partition (d : disk_info_t) (partition : Int) : disk_info_t :=
  if !d.valid then d
  else if partition < 0 ∨ 4 ≤ partition ∨ !(dpart d partition.toNat).active then d
  else
    let idx := partition.toNat
    let old := dpart d idx
    let part_size := old.size_sectors * 512
    let page_size := zealfsv2_page_size part_size
    { d with has_staged_changes := true
             staged_partitions := d.staged_partitions.set idx
               { old with ptype := 0x5a,
                          data := some (zealfsv2_format part_size),
                          data_len := page_size * 3 } }

/-- `disk_delete_partition`: frees the staged buffer, zeroes the staged
slot, re-encodes the (now empty) entry into the staged MBR, and reclaims
the free-slot index when it was the "none" sentinel. -/
def disk_delete_partition (d : disk_info_t) (partition : Int) : disk_info_t :=
  if !d.valid ∨ partition < 0 ∨ 4 ≤ partition then d
  else
    let idx := partition.toNat
    if !(dpart d idx).active then d
    else
      { d with has_staged_changes := true
               staged_partitions := d.staged_partitions.set idx emptyPartition
               free_part_idx := if d.free_part_idx = -1 then (idx : Int) else d.free_part_idx
               staged_mbr := setBytes d.staged_mbr (446 + idx * 16)
                 (disk_write_mbr_entry emptyPartition) }

/-- `disk_free_staged_partitions_data`: drop every staged slot's buffer. -/
def disk_free_staged_partitions_data (d : disk_info_t) : disk_info_t :=
  { d with staged_partitions :=
      d.staged_partitions.map (fun p => { p with data := none, data_len := 0 }) }

/-- `disk_revert_changes`: a no-op without staged changes; otherwise free
the staged buffers, copy committed MBR and partition table over the staged
ones, recompute `free_part_idx`, clear the flag. -/
def disk_revert_changes (d : disk_info_t) : disk_info_t :=
  if !d.has_staged_changes then d
  else
    let d₁ := disk_free_staged_partitions_data d
    let d₂ : disk_info_t :=
      { d₁ with has_staged_changes := false
                staged_mbr := d₁.mbr
                staged_partitions := d₁.partitions }
    { d₂ with free_part_idx := disk_find_free_partition d₂ }

/-- A staging operation on a disk's pending view. -/
inductive StagingOp where
  | alloc (lba sectors : Nat)
  | fmt (partition : Int)
  | del (partition : Int)
deriving DecidableEq, Repr

def applyOp (d : disk_info_t) : StagingOp → disk_info_t
  | .alloc lba sectors => disk_allocate_partition d lba sectors
  | .fmt i => disk_format_partition d i
  | .del i => disk_delete_partition d i

def applyOps (d : disk_info_t) (ops : List StagingOp) : disk_info_t :=
  ops.foldl applyOp d

/-- An MBR image whose first partition entry has the boot flag set
(byte 446 = 0x80) and type 0x0C, all other bytes zero. -/
def mbrFix : Nat → Nat := fun a => if a = 446 then 128 else if a = 450 then 12 else 0

/-- A valid, MBR-carrying disk with four empty partition slots and a clean
(committed = staged) view. -/
def dFix : disk_info_t :=
  { valid := true, has_mbr := true, mbr := List.replicate 512 0,
    partitions := List.replicate 4 emptyPartition,
    has_staged_changes := false, staged_mbr := List.replicate 512 0,
    staged_partitions := List.replicate 4 emptyPartition,
    free_part_idx := 0 }

/-! ### Byte-level facts (decided over the finite range of byte values) -/

theorem byteOnes_or_clear :
    ∀ v < 256, ∀ b < 8, Nat.testBit v b = false →
      byteOnes (v ||| 1 <<< b) = byteOnes v + 1 := by decide

theorem byteOnes_and_set :
    ∀ v < 256, ∀ b < 8, Nat.testBit v b = true →
      byteOnes (v &&& (255 ^^^ 1 <<< b)) + 1 = byteOnes v := by decide

theorem byte_or_lt_256 : ∀ v < 256, ∀ b < 8, v ||| 1 <<< b < 256 := by decide

theorem testBit_or_same : ∀ v < 256, ∀ b < 8, Nat.testBit (v ||| 1 <<< b) b = true := by decide

theorem testBit_or_other :
    ∀ v < 256, ∀ b < 8, ∀ j < 8, j ≠ b →
      Nat.testBit (v ||| 1 <<< b) j = Nat.testBit v j := by decide

theorem testBit_255 : ∀ b < 8, Nat.testBit 255 b = true := by decide

theorem byteOnes_eq_eight : ∀ v < 256, byteOnes v = 8 → v = 255 := by decide

theorem lowestClearBit_spec :
    ∀ v < 256, v ≠ 255 →
      lowestClearBit v < 8 ∧ Nat.testBit v (lowestClearBit v) = false ∧
      ∀ j < lowestClearBit v, Nat.testBit v j = true := by decide

/-! ### List helper lemmas -/

theorem getD_set_self (l : List Nat) (i : Nat) (x : Nat) (h : i < l.length) :
    (l.set i x).getD i 0 = x := by
  induction l generalizing i with
  | nil => simp at h
  | cons a t ih =>
    cases i with
    | zero => rfl
    | succ j => simpa using ih j (by simpa using h)

theorem getD_set_other (l : List Nat) (i j : Nat) (x : Nat) (h : i ≠ j) :
    (l.set i x).getD j 0 = l.getD j 0 := by
  induction l generalizing i j with
  | nil => simp [List.set]
  | cons a t ih =>
    cases i with
    | zero =>
      cases j with
      | zero => exact absurd rfl h
      | succ j' => rfl
    | succ i' =>
      cases j with
      | zero => rfl
      | succ j' => simpa using ih i' j' (fun hc => h (by rw [hc]))

theorem sum_map_set (l : List Nat) (i : Nat) (x : Nat) (h : i < l.length) :
    ((l.set i x).map byteOnes).sum + byteOnes (l.getD i 0) =
      (l.map byteOnes).sum + byteOnes x := by
  induction l generalizing i with
  | nil => simp at h
  | cons a t ih =>
    cases i with
    | zero => simp [List.set]; omega
    | succ j =>
      have := ih j (by simpa using h)
      simp only [List.set, List.map, List.sum_cons, List.getD_cons_succ]
      omega

theorem sum_map_all_255 (l : List Nat) (h : ∀ x ∈ l, x = 255) :
    (l.map byteOnes).sum = 8 * l.length := by
  induction l with
  | nil => simp
  | cons a t ih =>
    have ha : a = 255 := h a (by simp)
    have : (t.map byteOnes).sum = 8 * t.length := ih (fun x hx => h x (by simp [hx]))
    subst ha
    simp [this, byteOnes]
    ring

theorem getD_take (l : List Nat) (n i : Nat) (h : i < n) :
    (l.take n).getD i 0 = l.getD i 0 := by
  induction l generalizing n i with
  | nil => simp
  | cons a t ih =>
    cases n with
    | zero => omega
    | succ m =>
      cases i with
      | zero => rfl
      | succ j => simpa using ih m j (by omega)

theorem findFreeByte_none (l : List Nat) (h : findFreeByte l = none) :
    ∀ x ∈ l, x = 255 := by
  induction l with
  | nil => simp
  | cons a t ih =>
    have ha : a = 255 := by
      by_contra hc
      simp [findFreeByte, hc] at h
    subst ha
    have ht : findFreeByte t = none := by
      simp only [findFreeByte] at h
      rw [if_neg (by simp)] at h
      rcases hfb : findFreeByte t with _ | ⟨i, w⟩
      · rfl
      · rw [hfb] at h; simp at h
    intro x hx
    rcases List.mem_cons.mp hx with h1 | h2
    · exact h1
    · exact ih ht x h2

theorem findFreeByte_some (l : List Nat) (i v : Nat)
    (h : findFreeByte l = some (i, v)) :
    i < l.length ∧ l.getD i 0 = v ∧ v ≠ 255 ∧ ∀ j < i, l.getD j 0 = 255 := by
  induction l generalizing i v with
  | nil => simp [findFreeByte] at h
  | cons a t ih =>
    by_cases ha : a = 255
    · subst ha
      simp only [findFreeByte, ne_eq, not_true_eq_false, if_false] at h
      rcases hfb : findFreeByte t with _ | ⟨i', v'⟩
      · rw [hfb] at h; simp at h
      · rw [hfb] at h
        simp only [Option.some.injEq, Prod.mk.injEq] at h
        obtain ⟨hi, hv⟩ := h
        obtain ⟨hlen, hget, hne, hprev⟩ := ih i' v' hfb
        subst hi hv
        refine ⟨by simpa using hlen, by simpa using hget, hne, ?_⟩
        intro j hj
        cases j with
        | zero => rfl
        | succ j' => simpa using hprev j' (by omega)
    · simp only [findFreeByte, ne_eq, ha, not_false_eq_true, if_true,
        Option.some.injEq, Prod.mk.injEq] at h
      obtain ⟨hi, hv⟩ := h
      subst hi hv
      exact ⟨by simp, rfl, ha, by omega⟩

/-! ### Specification of the bitmap allocator -/

theorem byteOnes_le_eight : ∀ v < 256, byteOnes v ≤ 8 := by decide

theorem getD_lt_256 (l : List Nat) (hB : ∀ x ∈ l, x < 256) (j : Nat) :
    l.getD j 0 < 256 := by
  by_cases hj : j < l.length
  · apply hB
    rw [List.getD_eq_getElem?_getD, List.getElem?_eq_getElem hj]
    exact List.getElem_mem hj
  · rw [List.getD_eq_getElem?_getD, List.getElem?_eq_none (by omega)]
    norm_num

theorem allocate_page_spec (h : zealfs_header_t)
    (hB : ∀ x ∈ h.pages_bitmap, x < 256)
    (hLen : h.bitmap_size ≤ h.pages_bitmap.length)
    (hfree : popcountH h < 8 * h.bitmap_size) :
    (allocate_page h).2 < 8 * h.bitmap_size ∧
    bitGet h (allocate_page h).2 = false ∧
    (∀ j < (allocate_page h).2, bitGet h j = true) ∧
    (allocate_page h).1.bitmap_size = h.bitmap_size ∧
    (allocate_page h).1.page_size = h.page_size ∧
    (allocate_page h).1.free_pages = (h.free_pages + 65535) % 65536 ∧
    (allocate_page h).1.pages_bitmap.length = h.pages_bitmap.length ∧
    (∀ x ∈ (allocate_page h).1.pages_bitmap, x < 256) ∧
    popcountH (allocate_page h).1 = popcountH h + 1 ∧
    bitGet (allocate_page h).1 (allocate_page h).2 = true ∧
    (∀ j, j ≠ (allocate_page h).2 → bitGet (allocate_page h).1 j = bitGet h j) := by
  rcases hfb : findFreeByte (h.pages_bitmap.take h.bitmap_size) with _ | ⟨i, v⟩
  · exfalso
    have hall := findFreeByte_none _ hfb
    have hpc : popcountH h = 8 * h.bitmap_size := by
      unfold popcountH
      rw [sum_map_all_255 _ hall, List.length_take]
      omega
    omega
  · obtain ⟨hi, hget, hvne, hprev⟩ := findFreeByte_some _ _ _ hfb
    have hlen_take : (h.pages_bitmap.take h.bitmap_size).length = h.bitmap_size := by
      rw [List.length_take]; omega
    have hibs : i < h.bitmap_size := by omega
    have hgetl : h.pages_bitmap.getD i 0 = v := by
      rw [← getD_take h.pages_bitmap h.bitmap_size i hibs]; exact hget
    have hv256 : v < 256 := by rw [← hgetl]; exact getD_lt_256 _ hB i
    obtain ⟨hb8, hbbit, hbprev⟩ := lowestClearBit_spec v hv256 hvne
    have heq : allocate_page h =
        ({ h with
            pages_bitmap := h.pages_bitmap.set i (v ||| 1 <<< lowestClearBit v)
            free_pages := (h.free_pages + 65535) % 65536 },
          i * 8 + lowestClearBit v) := by
      unfold allocate_page
      rw [hfb]
    rw [heq]
    set b := lowestClearBit v with hbdef
    have hq8 : (i * 8 + b) / 8 = i := by omega
    have hqm : (i * 8 + b) % 8 = b := by omega
    have hilen : i < h.pages_bitmap.length := by omega
    refine ⟨by omega, ?_, ?_, rfl, rfl, rfl, by simp [List.length_set], ?_, ?_, ?_, ?_⟩
    · unfold bitGet
      rw [hq8, hqm, hgetl]
      exact hbbit
    · intro j hj
      unfold bitGet
      by_cases hji : j / 8 = i
      · have hjm : j % 8 < b := by omega
        rw [hji, hgetl]
        exact hbprev _ hjm
      · have hjlt : j / 8 < i := by omega
        have h255 : h.pages_bitmap.getD (j / 8) 0 = 255 := by
          rw [← getD_take h.pages_bitmap h.bitmap_size (j / 8) (by omega)]
          exact hprev _ hjlt
        rw [h255]
        exact testBit_255 _ (Nat.mod_lt _ (by norm_num))
    · intro x hx
      rcases List.mem_or_eq_of_mem_set hx with hm | he
      · exact hB x hm
      · rw [he]
        exact byte_or_lt_256 v hv256 b hb8
    · show ((( h.pages_bitmap.set i (v ||| 1 <<< b)).take h.bitmap_size).map byteOnes).sum
          = popcountH h + 1
      rw [List.set_take]
      have hsum := sum_map_set (h.pages_bitmap.take h.bitmap_size) i (v ||| 1 <<< b)
        (by omega)
      rw [getD_take h.pages_bitmap h.bitmap_size i hibs, hgetl] at hsum
      rw [byteOnes_or_clear v hv256 b hb8 hbbit] at hsum
      unfold popcountH
      omega
    · unfold bitGet
      show Nat.testBit
        ((h.pages_bitmap.set i (v ||| 1 <<< b)).getD ((i * 8 + b) / 8) 0) ((i * 8 + b) % 8) = true
      rw [hq8, hqm, getD_set_self _ _ _ hilen]
      exact testBit_or_same v hv256 b hb8
    · intro j hj
      unfold bitGet
      by_cases hji : j / 8 = i
      · have hjm : j % 8 ≠ b := by omega
        show Nat.testBit ((h.pages_bitmap.set i (v ||| 1 <<< b)).getD (j / 8) 0) (j % 8) =
          Nat.testBit (h.pages_bitmap.getD (j / 8) 0) (j % 8)
        rw [hji, getD_set_self _ _ _ hilen, hgetl]
        exact testBit_or_other v hv256 b hb8 (j % 8) (Nat.mod_lt _ (by norm_num)) hjm
      · show Nat.testBit ((h.pages_bitmap.set i (v ||| 1 <<< b)).getD (j / 8) 0) (j % 8) =
          Nat.testBit (h.pages_bitmap.getD (j / 8) 0) (j % 8)
        rw [getD_set_other _ _ _ _ (fun hc => hji hc.symm)]

theorem allocate_page_untouched (h : zealfs_header_t)
    (hLen : h.bitmap_size ≤ h.pages_bitmap.length)
    (hfull : ¬ popcountH h < 8 * h.bitmap_size)
    (hB : ∀ x ∈ h.pages_bitmap, x < 256) :
    allocate_page h = (h, 0) := by
  rcases hfb : findFreeByte (h.pages_bitmap.take h.bitmap_size) with _ | ⟨i, v⟩
  · unfold allocate_page
    rw [hfb]
  · exfalso
    obtain ⟨hi, hget, hvne, _⟩ := findFreeByte_some _ _ _ hfb
    have hlen_take : (h.pages_bitmap.take h.bitmap_size).length = h.bitmap_size := by
      rw [List.length_take]; omega
    have hibs : i < h.bitmap_size := by omega
    -- a byte below 0xFF keeps the popcount strictly below 8 * bitmap_size
    have hmain : ∀ l : List Nat, (∀ x ∈ l, x < 256) → ∀ i < l.length,
        l.getD i 0 ≠ 255 → (l.map byteOnes).sum < 8 * l.length := by
      intro l
      induction l with
      | nil => intro _ i hi; simp at hi
      | cons a t ih =>
        intro hBl i hil hne
        have ha256 : a < 256 := hBl a (by simp)
        have hBt : ∀ x ∈ t, x < 256 := fun x hx => hBl x (by simp [hx])
        have htle : (t.map byteOnes).sum ≤ 8 * t.length := by
          clear ih hil hne
          induction t with
          | nil => simp
          | cons c u ihu =>
            have hc : c < 256 := hBt c (by simp)
            have := ihu (fun x hx => hBl x (by simp at hx ⊢; tauto))
              (fun x hx => hBt x (by simp [hx]))
            simp only [List.map, List.sum_cons, List.length_cons]
            have := byteOnes_le_eight c hc
            omega
        cases i with
        | zero =>
          have : byteOnes a < 8 := by
            have h8 := byteOnes_le_eight a ha256
            rcases Nat.lt_or_ge (byteOnes a) 8 with hlt | hge
            · exact hlt
            · exfalso
              exact hne (byteOnes_eq_eight a ha256 (by omega))
          simp only [List.map, List.sum_cons, List.length_cons]
          omega
        | succ j =>
          have := ih hBt j (by simpa using hil) hne
          simp only [List.map, List.sum_cons, List.length_cons]
          have := byteOnes_le_eight a ha256
          omega
    have hv256 : (h.pages_bitmap.take h.bitmap_size).getD i 0 < 256 := by
      apply getD_lt_256
      intro x hx
      exact hB x (List.mem_of_mem_take hx)
    have := hmain (h.pages_bitmap.take h.bitmap_size)
      (fun x hx => hB x (List.mem_of_mem_take hx)) i (by omega) (by rw [hget]; exact hvne)
    unfold popcountH at hfull
    omega

theorem free_page_spec (h : zealfs_header_t) (page : Nat)
    (hB : ∀ x ∈ h.pages_bitmap, x < 256)
    (hLen : h.bitmap_size ≤ h.pages_bitmap.length)
    (hp : page / 8 < h.bitmap_size)
    (hbit : bitGet h page = true) :
    (free_page h page).free_pages = (h.free_pages + 1) % 65536 ∧
    (free_page h page).bitmap_size = h.bitmap_size ∧
    popcountH (free_page h page) + 1 = popcountH h := by
  have hv256 : h.pages_bitmap.getD (page / 8) 0 < 256 := getD_lt_256 _ hB _
  have hm8 : page % 8 < 8 := Nat.mod_lt _ (by norm_num)
  have hbyte := byteOnes_and_set (h.pages_bitmap.getD (page / 8) 0) hv256 (page % 8) hm8
    (by unfold bitGet at hbit; exact hbit)
  refine ⟨rfl, rfl, ?_⟩
  show (((h.pages_bitmap.set (page / 8) _).take h.bitmap_size).map byteOnes).sum + 1
      = popcountH h
  rw [List.set_take]
  have hsum := sum_map_set (h.pages_bitmap.take h.bitmap_size) (page / 8)
    ((h.pages_bitmap.getD (page / 8) 0) &&& (255 ^^^ 1 <<< (page % 8)))
    (by rw [List.length_take]; omega)
  rw [getD_take h.pages_bitmap h.bitmap_size (page / 8) hp] at hsum
  unfold popcountH
  omega

/-! ### Claim C1: the formatter -/

theorem page_size_decode (size : Nat) :
    256 * 2 ^ (32 - clz32 (zealfsv2_page_size size >>> 8) - 1) = zealfsv2_page_size size := by
  unfold zealfsv2_page_size
  split_ifs <;> decide

theorem fat_pages_cases (ps : Nat) : fat_pages_of ps = 1 ∨ fat_pages_of ps = 2 := by
  unfold fat_pages_of
  split_ifs <;> simp

theorem two_pow_64_eq : (2 : Nat) ^ 64 = 18446744073709551616 := by norm_num

/-- Claim C1 (counterexample): at partition size 256 the code stores
`free_pages = 65535` (the 64-bit subtraction `1 - 1 - 1` wraps and is
truncated to the 16-bit field), not the claimed
`total_pages - 1 - fat_pages = -1`. -/
theorem zealfsv2_format_free_pages_cex :
    (zealfsv2_format 256).free_pages = 65535 ∧
    ((zealfsv2_format 256).free_pages : Int) ≠ (256 / 256 : Int) - 1 - 1 := by decide

/-- The u16 `bitmap_size` and `free_pages` fields of a formatted header
take their exact (untruncated) values whenever the page count fits the
16-bit fields. -/
theorem zealfsv2_format_fields (size : Nat)
    (hlo : 1 + fat_pages_of (zealfsv2_page_size size) ≤ size / zealfsv2_page_size size)
    (hhi : size / zealfsv2_page_size size ≤ 65536) :
    (zealfsv2_format size).bitmap_size = size / zealfsv2_page_size size / 8 ∧
    (zealfsv2_format size).free_pages
      = size / zealfsv2_page_size size - 1 - fat_pages_of (zealfsv2_page_size size) := by
  have hbs : (zealfsv2_format size).bitmap_size
      = size / zealfsv2_page_size size / 8 % 65536 := rfl
  have hfpraw : (zealfsv2_format size).free_pages
      = (size / zealfsv2_page_size size
          + (2 ^ 64 - 1 - fat_pages_of (zealfsv2_page_size size))) % 2 ^ 64 % 65536 := rfl
  constructor
  · rw [hbs]
    omega
  · rw [hfpraw, two_pow_64_eq]
    rcases fat_pages_cases (zealfsv2_page_size size) with h1 | h2
    · rw [h1] at hlo ⊢
      omega
    · rw [h2] at hlo ⊢
      omega

/-- Claim C1 (amended): for every partition size whose page count fits the
16-bit header fields (`1 + fat_pages ≤ total_pages ≤ 65536`),
`zealfsv2_format` produces magic 'Z', version 2, the page size of the size
table encoded as `log2(page_size/256)` (stated as
`256 * 2^code = page_size`), `bitmap_size = size/page_size/8`,
`free_pages = total_pages - 1 - fat_pages` with `fat_pages` 1 for 256-byte
pages and 2 otherwise, bitmap byte 0 equal to 3 (pages 0,1) or 7 (pages
0,1,2), and a subsequent `free_space()` returning
`(total_pages - 1 - fat_pages) * page_size`. -/
theorem zealfsv2_format_spec (size : Nat)
    (hlo : 1 + fat_pages_of (zealfsv2_page_size size) ≤ size / zealfsv2_page_size size)
    (hhi : size / zealfsv2_page_size size ≤ 65536) :
    (zealfsv2_format size).magic = 90 ∧
    (zealfsv2_format size).version = 2 ∧
    256 * 2 ^ (zealfsv2_format size).page_size = zealfsv2_page_size size ∧
    (zealfsv2_format size).bitmap_size = size / zealfsv2_page_size size / 8 ∧
    (zealfsv2_format size).free_pages
      = size / zealfsv2_page_size size - 1 - fat_pages_of (zealfsv2_page_size size) ∧
    (zealfsv2_format size).pages_bitmap.getD 0 0
      = (if fat_pages_of (zealfsv2_page_size size) = 1 then 3 else 7) ∧
    ∀ fs : zealfs_state, fs.header = zealfsv2_format size →
      zealfs_free_space fs
        = (size / zealfsv2_page_size size - 1 - fat_pages_of (zealfsv2_page_size size))
          * zealfsv2_page_size size := by
  have hps : (zealfsv2_format size).page_size
      = 32 - clz32 (zealfsv2_page_size size >>> 8) - 1 := rfl
  obtain ⟨hbs, hfree⟩ := zealfsv2_format_fields size hlo hhi
  refine ⟨rfl, rfl, ?_, hbs, hfree, ?_, ?_⟩
  · rw [hps]; exact page_size_decode size
  · show (3 ||| (if fat_pages_of (zealfsv2_page_size size) > 1 then 4 else 0))
      = (if fat_pages_of (zealfsv2_page_size size) = 1 then 3 else 7)
    rcases fat_pages_cases (zealfsv2_page_size size) with h1 | h2
    · rw [h1]; decide
    · rw [h2]; decide
  · intro fs hfs
    unfold zealfs_free_space get_page_size
    rw [hfs, hfree, hps, Nat.shiftLeft_eq, page_size_decode size]

/-- Witness for the amended C1 theorem: a 1 MiB partition (1024-byte
pages, 1024 pages, two FAT pages, 1021 free pages). -/
theorem zealfsv2_format_spec_witness :
    (1 + fat_pages_of (zealfsv2_page_size 1048576) ≤ 1048576 / zealfsv2_page_size 1048576 ∧
      1048576 / zealfsv2_page_size 1048576 ≤ 65536) ∧
    (zealfsv2_format 1048576).free_pages
      = 1048576 / zealfsv2_page_size 1048576 - 1 - fat_pages_of (zealfsv2_page_size 1048576) :=
  ⟨⟨by decide, by decide⟩,
    (zealfsv2_format_spec 1048576 (by decide) (by decide)).2.2.2.2.1⟩

/-! ### Claim C2: popcount(bitmap) + free_pages is invariant -/

theorem sum_map_replicate_zero (n : Nat) :
    ((List.replicate n 0).map byteOnes).sum = 0 := by
  induction n with
  | zero => simp
  | succ m ih => simp [List.replicate, byteOnes, ih]

/-- Claim C2: `popcount(bitmap) + free_pages = total_pages` is established
by `zealfsv2_format` (for sizes that fit the 16-bit fields) and preserved
by `allocate_page` and by `free_page` under their call conditions
(`free_page` is called on allocated pages inside the bitmap region with a
non-saturated free count). -/
theorem zealfs_bitmap_invariant :
    (∀ size : Nat, 8 ≤ size / zealfsv2_page_size size →
      size / zealfsv2_page_size size ≤ 65536 →
      popcountH (zealfsv2_format size) + (zealfsv2_format size).free_pages
        = size / zealfsv2_page_size size) ∧
    (∀ (h : zealfs_header_t) (T : Nat),
      (∀ x ∈ h.pages_bitmap, x < 256) →
      h.bitmap_size ≤ h.pages_bitmap.length →
      popcountH h + h.free_pages = T →
      8 * h.bitmap_size ≤ T →
      h.free_pages < 65536 →
      popcountH (allocate_page h).1 + (allocate_page h).1.free_pages = T) ∧
    (∀ (h : zealfs_header_t) (page T : Nat),
      (∀ x ∈ h.pages_bitmap, x < 256) →
      h.bitmap_size ≤ h.pages_bitmap.length →
      page / 8 < h.bitmap_size →
      bitGet h page = true →
      popcountH h + h.free_pages = T →
      h.free_pages + 1 < 65536 →
      popcountH (free_page h page) + (free_page h page).free_pages = T) := by
  refine ⟨?_, ?_, ?_⟩
  · intro size hlo hhi
    have hfat := fat_pages_cases (zealfsv2_page_size size)
    have hlo' : 1 + fat_pages_of (zealfsv2_page_size size) ≤ size / zealfsv2_page_size size := by
      rcases hfat with h1 | h2 <;> omega
    obtain ⟨hbs, hfree⟩ := zealfsv2_format_fields size hlo' hhi
    have hpb : (zealfsv2_format size).pages_bitmap
        = (3 ||| (if fat_pages_of (zealfsv2_page_size size) > 1 then 4 else 0))
          :: List.replicate (size / zealfsv2_page_size size / 8 % 65536 - 1) 0 := rfl
    have hbs8 : size / zealfsv2_page_size size / 8 % 65536
        = size / zealfsv2_page_size size / 8 := by omega
    have hlen : (zealfsv2_format size).pages_bitmap.length
        = size / zealfsv2_page_size size / 8 := by
      rw [hpb]
      simp [List.length_replicate]
      omega
    unfold popcountH
    rw [List.take_of_length_le (by rw [hlen, hbs]), hpb]
    rcases hfat with h1 | h2
    · rw [h1] at hfree ⊢
      simp only [List.map, List.sum_cons, sum_map_replicate_zero]
      have : (3 ||| (if (1 : Nat) > 1 then 4 else 0)) = 3 := by decide
      rw [this]
      have hb3 : byteOnes 3 = 2 := by decide
      rw [hb3, hfree]
      omega
    · rw [h2] at hfree ⊢
      simp only [List.map, List.sum_cons, sum_map_replicate_zero]
      have : (3 ||| (if (2 : Nat) > 1 then 4 else 0)) = 7 := by decide
      rw [this]
      have hb7 : byteOnes 7 = 3 := by decide
      rw [hb7, hfree]
      omega
  · intro h T hB hLen hinv hT hfree
    by_cases hroom : popcountH h < 8 * h.bitmap_size
    · obtain ⟨-, -, -, -, -, hfp, -, -, hpc, -, -⟩ := allocate_page_spec h hB hLen hroom
      rw [hpc, hfp]
      omega
    · rw [allocate_page_untouched h hLen hroom hB]
      exact hinv
  · intro h page T hB hLen hp hbit hinv hfree
    obtain ⟨hfp, -, hpc⟩ := free_page_spec h page hB hLen hp hbit
    rw [hfp]
    omega

/-- Witness for C2: the format clause at a 64 KiB partition, and the
allocate/free clauses on the header of a mounted 2 KiB session with pages
0, 1 and 2 allocated. -/
theorem zealfs_bitmap_invariant_witness :
    (8 ≤ 65536 / zealfsv2_page_size 65536 ∧ 65536 / zealfsv2_page_size 65536 ≤ 65536 ∧
      popcountH (zealfsv2_format 65536) + (zealfsv2_format 65536).free_pages
        = 65536 / zealfsv2_page_size 65536) ∧
    popcountH (allocate_page ⟨90, 2, 1, 5, 0, [7]⟩).1
      + (allocate_page (⟨90, 2, 1, 5, 0, [7]⟩ : zealfs_header_t)).1.free_pages = 8 ∧
    popcountH (free_page ⟨90, 2, 1, 5, 0, [7]⟩ 2)
      + (free_page (⟨90, 2, 1, 5, 0, [7]⟩ : zealfs_header_t) 2).free_pages = 8 :=
  ⟨⟨by decide, by decide,
      zealfs_bitmap_invariant.1 65536 (by decide) (by decide)⟩,
    zealfs_bitmap_invariant.2.1 ⟨90, 2, 1, 5, 0, [7]⟩ 8 (by decide) (by decide)
      (by decide) (by decide) (by decide),
    zealfs_bitmap_invariant.2.2 ⟨90, 2, 1, 5, 0, [7]⟩ 2 8 (by decide) (by decide)
      (by decide) (by decide) (by decide) (by decide)⟩

/-! ### Support lemmas for the write/read loops -/

theorem get_page_size_pos (h : zealfs_header_t) : 0 < get_page_size h := by
  unfold get_page_size
  rw [Nat.shiftLeft_eq]
  positivity

theorem get_page_size_congr {h₁ h₂ : zealfs_header_t} (h : h₁.page_size = h₂.page_size) :
    get_page_size h₁ = get_page_size h₂ := by
  unfold get_page_size
  rw [h]

theorem div_in_page (ps p r : Nat) (hps : 0 < ps) (hr : r < ps) :
    (p * ps + r) / ps = p := by
  rw [Nat.mul_comm p ps, Nat.mul_add_div hps, Nat.div_eq_of_lt hr, Nat.add_zero]

theorem page_of_addr (ps p a lo count : Nat) (hps : 0 < ps)
    (h1 : p * ps + lo ≤ a) (h2 : a < p * ps + lo + count) (h3 : lo + count ≤ ps) :
    a / ps = p := by
  obtain ⟨r, hre, hrl⟩ : ∃ r, a = p * ps + r ∧ r < ps := ⟨a - p * ps, by omega, by omega⟩
  subst hre
  exact div_in_page ps p r hps hrl

theorem addr_of_page (ps a : Nat) (hps : 0 < ps) :
    (a / ps) * ps ≤ a ∧ a < (a / ps) * ps + ps := by
  have hm := Nat.div_add_mod a ps
  have hl := Nat.mod_lt a hps
  refine ⟨Nat.div_mul_le_self a ps, ?_⟩
  calc a = ps * (a / ps) + a % ps := hm.symm
    _ < ps * (a / ps) + ps := Nat.add_lt_add_left hl _
    _ = (a / ps) * ps + ps := by rw [Nat.mul_comm]

theorem writeRange_in (d : Nat → Nat) (addr len : Nat) (src : Nat → Nat) (a : Nat)
    (h1 : addr ≤ a) (h2 : a < addr + len) :
    writeRange d addr len src a = src (a - addr) := by
  unfold writeRange
  rw [if_pos ⟨h1, h2⟩]

theorem writeRange_out (d : Nat → Nat) (addr len : Nat) (src : Nat → Nat) (a : Nat)
    (h : a < addr ∨ addr + len ≤ a) :
    writeRange d addr len src a = d a := by
  unfold writeRange
  rw [if_neg]
  rintro ⟨h1, h2⟩
  omega

theorem readRange_congr (d : Nat → Nat) (addr count : Nat) (f : Nat → Nat)
    (h : ∀ i < count, d (addr + i) = f i) :
    readRange d addr count = (List.range count).map f := by
  unfold readRange
  exact List.map_congr_left (fun i hi => h i (List.mem_range.mp hi))

theorem range_map_split (f : Nat → Nat) (c s : Nat) :
    (List.range (c + s)).map f
      = (List.range c).map f ++ (List.range s).map (fun i => f (c + i)) := by
  rw [List.range_add, List.map_append, List.map_map]
  rfl

theorem chunkState_header (ps : Nat) (fs : zealfs_state) (current oip count : Nat)
    (buf : Nat → Nat) (bufpos : Nat) :
    (chunkState ps fs current oip count buf bufpos).header = fs.header := rfl

theorem chunkState_fat (ps : Nat) (fs : zealfs_state) (current oip count : Nat)
    (buf : Nat → Nat) (bufpos : Nat) :
    (chunkState ps fs current oip count buf bufpos).fat = fs.fat := rfl

theorem writeLoop_size_zero (ps fuel : Nat) (fs : zealfs_state) (current : Nat)
    (buf : Nat → Nat) (bufpos oip esize : Nat) :
    writeLoop ps fuel fs current buf bufpos 0 oip esize = .ok (fs, esize) := by
  cases fuel <;> simp [writeLoop]

theorem writeLoop_step (ps fuel : Nat) (fs : zealfs_state) (current : Nat)
    (buf : Nat → Nat) (bufpos size oip esize : Nat) (hsz : ¬ size = 0) :
    writeLoop ps (fuel + 1) fs current buf bufpos size oip esize =
      (if fs.fat current ≠ 0 then
        writeLoop ps fuel (chunkState ps fs current oip (min (ps - oip) size) buf bufpos)
          (fs.fat current) buf (bufpos + min (ps - oip) size) (size - min (ps - oip) size) 0
          ((esize + min (ps - oip) size) % 4294967296)
      else if size - min (ps - oip) size ≠ 0 then
        match allocate_next (chunkState ps fs current oip (min (ps - oip) size) buf bufpos)
            current with
        | .error e => .error e
        | .ok (fs₂, q) =>
          writeLoop ps fuel fs₂ q buf (bufpos + min (ps - oip) size)
            (size - min (ps - oip) size) 0 ((esize + min (ps - oip) size) % 4294967296)
      else
        writeLoop ps fuel (chunkState ps fs current oip (min (ps - oip) size) buf bufpos)
          current buf (bufpos + min (ps - oip) size) (size - min (ps - oip) size) 0
          ((esize + min (ps - oip) size) % 4294967296)) := by
  rw [writeLoop, if_neg hsz]
  rfl

theorem readLoop_size_zero (ps : Nat) (d fat : Nat → Nat) (fuel current oip : Nat) :
    readLoop ps d fat fuel current oip 0 = [] := by
  cases fuel <;> simp [readLoop]

theorem readLoop_step (ps : Nat) (d fat : Nat → Nat) (fuel current oip size : Nat)
    (hsz : ¬ size = 0) :
    readLoop ps d fat (fuel + 1) current oip size =
      readRange d (current * ps + oip) (min (ps - oip) size) ++
        readLoop ps d fat fuel
          (if size ≠ min (ps - oip) size then fat current else current) 0
          (size - min (ps - oip) size) := by
  rw [readLoop, if_neg hsz]

theorem allocate_next_ok (fs : zealfs_state) (current : Nat)
    (hq : (allocate_page fs.header).2 ≠ 0) :
    allocate_next fs current =
      .ok ({ fs with header := (allocate_page fs.header).1,
                     fat := updFat fs.fat current (allocate_page fs.header).2 },
        (allocate_page fs.header).2) := by
  unfold allocate_next
  rw [if_neg hq]

/-- Full characterization of the `zealfs_write` chunk loop when it starts
at the last page of a chain (`fat current = 0`) with enough capacity:
the loop succeeds, grows `entry.size` by the byte count, keeps the
allocator invariants, touches no allocated page other than `current`
(on disk or in the FAT), only sets bitmap bits, and — the round-trip
property — re-reading the same span through the final FAT from any byte
store that agrees with the final one on `current`'s page and on the pages
that were free beforehand returns exactly the bytes written. -/
theorem writeLoop_spec (ps : Nat) (fuel : Nat) :
    ∀ (size : Nat) (fs : zealfs_state) (current : Nat) (buf : Nat → Nat)
      (bufpos oip esize : Nat),
    size ≤ fuel →
    ps = get_page_size fs.header →
    InvCore fs →
    bitGet fs.header current = true →
    fs.fat current = 0 →
    oip < ps →
    size ≤ fs.header.free_pages * ps + (ps - oip) →
    esize < 4294967296 →
    ∃ (fs' : zealfs_state) (esize' : Nat),
      writeLoop ps fuel fs current buf bufpos size oip esize = .ok (fs', esize') ∧
      esize' = (esize + size) % 4294967296 ∧
      fs'.header.page_size = fs.header.page_size ∧
      fs'.header.bitmap_size = fs.header.bitmap_size ∧
      fs'.fat_size = fs.fat_size ∧
      InvCore fs' ∧
      (∀ r, bitGet fs.header r = true → bitGet fs'.header r = true) ∧
      (∀ r, bitGet fs.header r = true → r ≠ current → fs'.fat r = fs.fat r) ∧
      (∀ a, bitGet fs.header (a / ps) = true → a / ps ≠ current → fs'.disk a = fs.disk a) ∧
      (∀ D : Nat → Nat,
        (∀ a, a / ps = current ∨ bitGet fs.header (a / ps) = false → D a = fs'.disk a) →
        ∀ rfuel, size ≤ rfuel →
          readLoop ps D fs'.fat rfuel current oip size
            = (List.range size).map (fun i => buf (bufpos + i))) := by
  induction fuel with
  | zero =>
    intro size fs current buf bufpos oip esize hfuel hps hinv hbit hfat hoip hcap hesize
    have hs0 : size = 0 := by omega
    subst hs0
    refine ⟨fs, esize, writeLoop_size_zero ps 0 fs current buf bufpos oip esize, ?_, rfl, rfl,
      rfl, hinv, fun r hr => hr, fun r _ _ => rfl, fun a _ _ => rfl, ?_⟩
    · omega
    · intro D hD rfuel hrf
      rw [readLoop_size_zero]
      simp
  | succ fuel ih =>
    intro size fs current buf bufpos oip esize hfuel hps hinv hbit hfat hoip hcap hesize
    by_cases hsz : size = 0
    · subst hsz
      refine ⟨fs, esize, writeLoop_size_zero ps _ fs current buf bufpos oip esize, ?_, rfl, rfl,
        rfl, hinv, fun r hr => hr, fun r _ _ => rfl, fun a _ _ => rfl, ?_⟩
      · omega
      · intro D hD rfuel hrf
        rw [readLoop_size_zero]
        simp
    · -- one chunk is written at page `current`
      have hinv' := hinv
      obtain ⟨hB, hLen, hBS16, hPC, hFree16, hClearFat, hBit0⟩ := hinv'
      have hps_pos : 0 < ps := by rw [hps]; exact get_page_size_pos fs.header
      have hC1 : 1 ≤ min (ps - oip) size := by omega
      have hCle : min (ps - oip) size ≤ size := Nat.min_le_right _ _
      have hCps : oip + min (ps - oip) size ≤ ps := by omega
      set C := min (ps - oip) size with hCdef
      have hchunk_disk_in : ∀ a, current * ps + oip ≤ a → a < current * ps + oip + C →
          (chunkState ps fs current oip C buf bufpos).disk a = buf (bufpos + (a - (current * ps + oip))) := by
        intro a h1 h2
        show writeRange fs.disk (current * ps + oip) C (fun i => buf (bufpos + i)) a = _
        rw [writeRange_in _ _ _ _ _ h1 h2]
      have hchunk_disk_out : ∀ a, a / ps ≠ current →
          (chunkState ps fs current oip C buf bufpos).disk a = fs.disk a := by
        intro a hne
        show writeRange fs.disk (current * ps + oip) C (fun i => buf (bufpos + i)) a = fs.disk a
        apply writeRange_out
        by_contra hc
        push_neg at hc
        exact hne (page_of_addr ps current a oip C hps_pos hc.1 hc.2 hCps)
      by_cases hrem : size - C = 0
      · -- last chunk: the loop stops after this write
        have hrunA : writeLoop ps (fuel + 1) fs current buf bufpos size oip esize
            = .ok (chunkState ps fs current oip C buf bufpos, (esize + C) % 4294967296) := by
          rw [writeLoop_step ps fuel fs current buf bufpos size oip esize hsz,
            if_neg (show ¬ fs.fat current ≠ 0 from by rw [hfat]; simp), ← hCdef,
            if_neg (show ¬ size - C ≠ 0 from by omega), hrem, writeLoop_size_zero]
        refine ⟨chunkState ps fs current oip C buf bufpos, (esize + C) % 4294967296, hrunA,
          ?_, rfl, rfl, rfl, hinv, fun r hr => hr, fun r _ _ => rfl, ?_, ?_⟩
        · have : C = size := by omega
          rw [this]
        · intro a _ hne
          exact hchunk_disk_out a hne
        · intro D hD rfuel hrf
          rcases rfuel with _ | rf
          · omega
          · rw [readLoop_step ps D _ rf current oip size hsz]
            have hCsz : min (ps - oip) size = size := by omega
            rw [← hCdef, hrem, readLoop_size_zero, List.append_nil]
            have hCsz' : C = size := by omega
            rw [hCsz']
            apply readRange_congr
            intro i hi
            have hpage : (current * ps + oip + i) / ps = current :=
              page_of_addr ps current _ oip C hps_pos (by omega) (by omega) hCps
            rw [hD _ (Or.inl hpage)]
            rw [hchunk_disk_in _ (by omega) (by omega)]
            congr 1
            omega
      · -- more bytes follow: allocate the next page and recurse
        have hCeq : C = ps - oip := by omega
        have hszC : size > C := by omega
        -- free_pages is positive, so the allocation succeeds
        have hfree1 : 1 ≤ fs.header.free_pages := by
          by_contra hc
          have h0 : fs.header.free_pages = 0 := by omega
          rw [h0, Nat.zero_mul] at hcap
          omega
        have hroom : popcountH fs.header < 8 * fs.header.bitmap_size := by omega
        obtain ⟨hq_lt, hq_clear, hq_least, ha_bs, ha_ps, ha_free, ha_len, ha_bytes,
          ha_pc, hq_set, ha_other⟩ := allocate_page_spec fs.header hB hLen hroom
        have hq0 : (allocate_page fs.header).2 ≠ 0 := by
          intro hc
          rw [hc] at hq_clear
          rw [hq_clear] at hBit0
          simp at hBit0
        have hch : (chunkState ps fs current oip C buf bufpos).header = fs.header := rfl
        obtain ⟨fs₂, q, hrun2, hh2, hf2, hd2, hfsz2, hqeq⟩ :
            ∃ fs₂ q, allocate_next (chunkState ps fs current oip C buf bufpos) current
                = .ok (fs₂, q) ∧
              fs₂.header = (allocate_page fs.header).1 ∧
              fs₂.fat = updFat fs.fat current (allocate_page fs.header).2 ∧
              fs₂.disk = (chunkState ps fs current oip C buf bufpos).disk ∧
              fs₂.fat_size = fs.fat_size ∧
              q = (allocate_page fs.header).2 :=
          ⟨_, _, allocate_next_ok _ current hq0, rfl, rfl, rfl, rfl, rfl⟩
        rw [← hqeq] at hq_lt hq_clear hq_least hq_set hq0
        rw [← hh2] at ha_bs ha_ps ha_free ha_len ha_bytes ha_pc hq_set
        have ha_other' : ∀ j, j ≠ q → bitGet fs₂.header j = bitGet fs.header j := by
          intro j hj
          rw [hh2]
          exact ha_other j (by rw [← hqeq]; exact hj)
        have hrun : writeLoop ps (fuel + 1) fs current buf bufpos size oip esize
            = writeLoop ps fuel fs₂ q buf (bufpos + C) (size - C) 0
              ((esize + C) % 4294967296) := by
          rw [writeLoop_step ps fuel fs current buf bufpos size oip esize hsz]
          rw [if_neg (show ¬ fs.fat current ≠ 0 from by rw [hfat]; simp), ← hCdef,
            if_pos (show size - C ≠ 0 from by omega), hrun2]
        have hcurq : current ≠ q := by
          intro hc
          rw [← hc] at hq_clear
          rw [hq_clear] at hbit
          simp at hbit
        have hfm : (fs.header.free_pages + 65535) % 65536 = fs.header.free_pages - 1 := by
          omega
        -- the session invariants after the allocation
        have hps₂ : ps = get_page_size fs₂.header := by
          rw [hps]
          exact (get_page_size_congr ha_ps).symm
        have hinv₂ : InvCore fs₂ := by
          refine ⟨ha_bytes, ?_, ?_, ?_, ?_, ?_, ?_⟩
          · rw [ha_bs, ha_len]; exact hLen
          · rw [ha_bs]; exact hBS16
          · rw [ha_pc, ha_free, hfm, ha_bs]; omega
          · rw [ha_free, hfm]; omega
          · intro p hp hclear
            have hpq : p ≠ q := by
              intro hc
              rw [hc, hq_set] at hclear
              simp at hclear
            have hclear' : bitGet fs.header p = false := by
              rw [← ha_other' p hpq]; exact hclear
            have hpcur : p ≠ current := by
              intro hc
              rw [hc, hbit] at hclear'
              simp at hclear'
            rw [hf2]
            simp only [updFat]
            rw [if_neg hpcur]
            exact hClearFat p (by rw [ha_bs] at hp; exact hp) hclear'
          · have h0q : (0 : Nat) ≠ q := fun hc => hq0 hc.symm
            rw [ha_other' 0 h0q]; exact hBit0
        have hbit₂ : bitGet fs₂.header q = true := hq_set
        have hfat₂ : fs₂.fat q = 0 := by
          rw [hf2]
          simp only [updFat]
          rw [if_neg (fun hc => hcurq hc.symm)]
          exact hClearFat q hq_lt hq_clear
        have hmul : (fs.header.free_pages - 1) * ps + ps = fs.header.free_pages * ps := by
          have h1 : fs.header.free_pages - 1 + 1 = fs.header.free_pages := by omega
          calc (fs.header.free_pages - 1) * ps + ps
              = ((fs.header.free_pages - 1) + 1) * ps := by ring
            _ = fs.header.free_pages * ps := by rw [h1]
        have hcap₂ : size - C ≤ fs₂.header.free_pages * ps + (ps - 0) := by
          rw [ha_free, hfm, Nat.sub_zero, hmul]
          rw [hCeq]
          generalize hFP : fs.header.free_pages * ps = FP at hcap ⊢
          omega
        have hesize₂ : (esize + C) % 4294967296 < 4294967296 := Nat.mod_lt _ (by norm_num)
        obtain ⟨fs', esize', h_run, h_esz, h_pg, h_bs, h_fsz, h_inv, h_bits, h_fatfr,
          h_diskfr, h_read⟩ :=
          ih (size - C) fs₂ q buf (bufpos + C) 0 ((esize + C) % 4294967296)
            (by omega) hps₂ hinv₂ hbit₂ hfat₂ hps_pos hcap₂ hesize₂
        have hbit₂cur : bitGet fs₂.header current = true := by
          rw [ha_other' current hcurq]; exact hbit
        refine ⟨fs', esize', ?_, ?_, ?_, ?_, ?_, h_inv, ?_, ?_, ?_, ?_⟩
        · rw [hrun]
          exact h_run
        · rw [h_esz, Nat.mod_add_mod]
          omega
        · rw [h_pg, ha_ps]
        · rw [h_bs, ha_bs]
        · rw [h_fsz, hfsz2]
        · intro r hr
          have hrq : r ≠ q := by
            intro hc
            rw [hc] at hr
            rw [hr] at hq_clear
            simp at hq_clear
          apply h_bits
          rw [ha_other' r hrq]
          exact hr
        · intro r hr hrc
          have hrq : r ≠ q := by
            intro hc
            rw [hc] at hr
            rw [hr] at hq_clear
            simp at hq_clear
          rw [h_fatfr r (by rw [ha_other' r hrq]; exact hr) hrq, hf2]
          simp only [updFat]
          rw [if_neg hrc]
        · intro a ha hac
          have haq : a / ps ≠ q := by
            intro hc
            rw [hc] at ha
            rw [ha] at hq_clear
            simp at hq_clear
          rw [h_diskfr a (by rw [ha_other' _ haq]; exact ha) haq, hd2]
          exact hchunk_disk_out a hac
        · intro D hD rfuel hrf
          rcases rfuel with _ | rf
          · omega
          · have hfc : fs'.fat current = q := by
              rw [h_fatfr current hbit₂cur hcurq, hf2]
              simp only [updFat]
              rw [← hqeq]
              exact Nat.mod_eq_of_lt (by omega)
            have hD' : ∀ a, a / ps = q ∨ bitGet fs₂.header (a / ps) = false →
                D a = fs'.disk a := by
              intro a hcase
              apply hD
              rcases hcase with hl | hrr
              · exact Or.inr (by rw [hl]; exact hq_clear)
              · have haq : a / ps ≠ q := by
                  intro hc
                  rw [hc, hq_set] at hrr
                  simp at hrr
                exact Or.inr (by rw [← ha_other' _ haq]; exact hrr)
            have hpart1 : readRange D (current * ps + oip) C
                = (List.range C).map (fun i => buf (bufpos + i)) := by
              apply readRange_congr
              intro i hi
              have hpage : (current * ps + oip + i) / ps = current :=
                page_of_addr ps current _ oip C hps_pos (by omega) (by omega) hCps
              rw [hD _ (Or.inl hpage)]
              rw [h_diskfr _ (by rw [hpage, ha_other' current hcurq]; exact hbit)
                (by rw [hpage]; exact hcurq), hd2]
              have hidx : current * ps + oip + i - (current * ps + oip) = i := by omega
              rw [hchunk_disk_in _ (by omega) (by omega), hidx]
            have hpart2 := h_read D hD' rf (by omega)
            have hsplit : (List.range size).map (fun i => buf (bufpos + i))
                = (List.range C).map (fun i => buf (bufpos + i))
                  ++ (List.range (size - C)).map (fun i => buf (bufpos + C + i)) := by
              have hs : size = C + (size - C) := by omega
              rw [hs, range_map_split]
              rw [show C + (size - C) - C = size - C from by omega]
              apply congrArg
              apply List.map_congr_left
              intro i _
              rw [Nat.add_assoc]
            rw [readLoop_step ps D fs'.fat rf current oip size hsz, ← hCdef,
              if_pos (show size ≠ C from by omega), hfc, hpart1, hpart2, hsplit]

theorem get_fs_header_size_congr {h₁ h₂ : zealfs_header_t}
    (h : h₁.bitmap_size = h₂.bitmap_size) :
    get_fs_header_size h₁ = get_fs_header_size h₂ := by
  unfold get_fs_header_size
  rw [h]

theorem get_page_size_le (h : zealfs_header_t) (hc : h.page_size ≤ 8) :
    get_page_size h ≤ 65536 := by
  unfold get_page_size
  rw [Nat.shiftLeft_eq]
  calc 256 * 2 ^ h.page_size ≤ 256 * 2 ^ 8 := by
        exact Nat.mul_le_mul_left _ (Nat.pow_le_pow_right (by norm_num) hc)
    _ = 65536 := by norm_num

/-- `zealfs_write` at offset 0 on a freshly created file with
`len ≤ free_space()`: the write succeeds, returns `len`, sets the handle's
size to `len`, and the written span can be read back through the final FAT
from any byte store agreeing with the final one on the file's pages. -/
theorem zealfs_write_fresh (fs : zealfs_state) (fd : zealfs_fd_t) (buf : Nat → Nat) (len : Nat)
    (hs : SessionInv fs) (hf : FreshFd fs fd) (hlen : len ≤ zealfs_free_space fs) :
    ∃ fs' : zealfs_state,
      zealfs_write fs fd buf len 0
        = .ok (fs', { fd with entry := { fd.entry with size := len } }, len) ∧
      fs'.header.page_size = fs.header.page_size ∧
      fs'.header.bitmap_size = fs.header.bitmap_size ∧
      fs'.fat_size = fs.fat_size ∧
      (∀ D : Nat → Nat,
        (∀ a, a / get_page_size fs.header = fd.entry.start_page ∨
            bitGet fs.header (a / get_page_size fs.header) = false → D a = fs'.disk a) →
        ∀ rfuel, len ≤ rfuel →
          readLoop (get_page_size fs.header) D fs'.fat rfuel fd.entry.start_page 0 len
            = (List.range len).map buf) := by
  obtain ⟨hinv, hps8, hbit1, hbit2, hfatsz, hhs⟩ := hs
  obtain ⟨hsz0, hbitS, hfatS, hSgt, hdS, hbitD, hEfit⟩ := hf
  by_cases hl0 : len = 0
  · subst hl0
    refine ⟨fs, ?_, rfl, rfl, rfl, ?_⟩
    · show zealfs_write fs fd buf 0 0 = _
      unfold zealfs_write
      rw [if_pos rfl]
      have hentry : ({ fd.entry with size := 0 } : zealfs_entry_t) = fd.entry := by
        rw [← hsz0]
      rw [hentry]
    · intro D hD rfuel hrf
      rw [readLoop_size_zero]
      simp
  · have hps_pos : 0 < get_page_size fs.header := get_page_size_pos fs.header
    have hoip : 0 % get_page_size fs.header < get_page_size fs.header := by
      rw [Nat.zero_mod]; exact hps_pos
    have hlen32 : len < 4294967296 := by
      have h1 : zealfs_free_space fs
          = fs.header.free_pages * get_page_size fs.header := rfl
      have h2 : fs.header.free_pages < 65536 := hinv.2.2.2.2.1
      have h3 : get_page_size fs.header ≤ 65536 := get_page_size_le fs.header hps8
      have h4 : fs.header.free_pages * get_page_size fs.header ≤ 65535 * 65536 :=
        Nat.mul_le_mul (by omega) h3
      omega
    obtain ⟨fs', esize', h_run, h_esz, h_pg, h_bs, h_fsz, h_inv, h_bits, h_fatfr,
      h_diskfr, h_read⟩ :=
      writeLoop_spec (get_page_size fs.header) len len fs fd.entry.start_page buf 0
        (0 % get_page_size fs.header) fd.entry.size (le_refl len) rfl hinv hbitS hfatS
        hoip
        (by rw [Nat.zero_mod]
            have h1 : zealfs_free_space fs
                = fs.header.free_pages * get_page_size fs.header := rfl
            omega)
        (by rw [hsz0]; norm_num)
    rw [Nat.zero_mod] at h_read
    have hesz : esize' = len := by
      rw [h_esz, hsz0, Nat.zero_add]
      exact Nat.mod_eq_of_lt hlen32
    have hcheck : ¬ (zealfs_free_space fs
        + (get_page_size fs.header - 0 % get_page_size fs.header) < len) := by
      omega
    refine ⟨fs', ?_, h_pg, h_bs, h_fsz, ?_⟩
    · unfold zealfs_write
      rw [if_neg hl0]
      simp only [if_neg hcheck, Nat.zero_div, writeJump]
      rw [h_run, hesz]
    · intro D hD rfuel hrf
      rw [h_read D hD rfuel hrf]
      apply List.map_congr_left
      intro i _
      rw [Nat.zero_add]

/-- Claim C3: on a mounted session with a freshly created file,
`write(h, buf, len, 0); flush; read(h, out, len, 0)` succeeds for every
`len ≤ free_space()` and reads back exactly the bytes written. -/
theorem zealfs_write_flush_read_roundtrip (fs : zealfs_state) (fd : zealfs_fd_t)
    (buf : Nat → Nat) (len : Nat)
    (hs : SessionInv fs) (hf : FreshFd fs fd) (hlen : len ≤ zealfs_free_space fs) :
    writeTotal (zealfs_write fs fd buf len 0) = some len ∧
    writeFlushRead fs fd buf len = some ((List.range len).map buf) := by
  obtain ⟨fs', h_run, h_pg, h_bs, h_fsz, h_read⟩ := zealfs_write_fresh fs fd buf len hs hf hlen
  obtain ⟨hinv, hps8, hbit1, hbit2, hfatsz, hhs⟩ := hs
  obtain ⟨hsz0, hbitS, hfatS, hSgt, hdS, hbitD, hEfit⟩ := hf
  have hps_pos : 0 < get_page_size fs.header := get_page_size_pos fs.header
  constructor
  · rw [h_run]
    rfl
  · unfold writeFlushRead
    rw [h_run]
    by_cases hl0 : len = 0
    · subst hl0
      simp [zealfs_read]
    · -- the flushed byte store agrees with the written one on the file's pages
      set fd₁ : zealfs_fd_t := { fd with entry := { fd.entry with size := len } } with hfd₁
      show some (zealfs_read (zealfs_flush fs' fd₁) fd₁ len 0).1
          = some (List.map buf (List.range len))
      have hpseq : get_page_size fs'.header = get_page_size fs.header :=
        get_page_size_congr h_pg
      have hhseq : get_fs_header_size fs'.header = get_fs_header_size fs.header :=
        get_fs_header_size_congr h_bs
      have hflush_disk : (zealfs_flush fs' fd₁).disk
          = writeRange (writeRange (writeRange fs'.disk fd.entry_addr 32
              (fun i => (entryBytes fd₁.entry).getD i 0)) 0 (get_fs_header_size fs'.header)
              (headerByte fs'.header)) (get_page_size fs'.header) fs'.fat_size
              (fatByte fs'.fat) := rfl
      have hagree : ∀ a, a / get_page_size fs.header = fd.entry.start_page ∨
          bitGet fs.header (a / get_page_size fs.header) = false →
          (zealfs_flush fs' fd₁).disk a = fs'.disk a := by
        intro a hcase
        -- the page holding `a` is neither reserved nor the entry's page
        have hnot0 : a / get_page_size fs.header ≠ 0 := by
          intro hc
          rcases hcase with hl | hr
          · omega
          · rw [hc, hinv.2.2.2.2.2.2] at hr
            simp at hr
        have hnot1 : a / get_page_size fs.header ≠ 1 := by
          intro hc
          rcases hcase with hl | hr
          · have := fat_pages_cases (get_page_size fs.header)
            omega
          · rw [hc, hbit1] at hr
            simp at hr
        have hnot2 : fat_pages_of (get_page_size fs.header) = 2 →
            a / get_page_size fs.header ≠ 2 := by
          intro hf2 hc
          rcases hcase with hl | hr
          · omega
          · rw [hc, hbit2 hf2] at hr
            simp at hr
        have hnotD : a / get_page_size fs.header ≠ fd.entry_addr / get_page_size fs.header := by
          intro hc
          rcases hcase with hl | hr
          · rw [hl] at hc
            exact hdS hc.symm
          · rw [hc, hbitD] at hr
            simp at hr
        rw [hflush_disk]
        rw [writeRange_out _ _ _ _ _ ?_, writeRange_out _ _ _ _ _ ?_,
          writeRange_out _ _ _ _ _ ?_]
        · -- the entry write stays inside the entry's directory page
          by_contra hc
          push_neg at hc
          apply hnotD
          have hdec : fd.entry_addr / get_page_size fs.header * get_page_size fs.header
              + fd.entry_addr % get_page_size fs.header = fd.entry_addr := by
            rw [Nat.mul_comm]
            exact Nat.div_add_mod _ _
          exact page_of_addr (get_page_size fs.header)
            (fd.entry_addr / get_page_size fs.header) a
            (fd.entry_addr % get_page_size fs.header) 32 hps_pos (by omega) (by omega) hEfit
        · -- the header write stays inside page 0
          by_contra hc
          push_neg at hc
          apply hnot0
          rw [hhseq] at hc
          exact Nat.div_eq_of_lt (by omega)
        · -- the FAT write covers pages 1..fat_pages only
          by_contra hc
          push_neg at hc
          rw [hpseq, h_fsz, hfatsz] at hc
          have hge1 : 1 ≤ a / get_page_size fs.header := by
            rw [Nat.le_div_iff_mul_le hps_pos]
            omega
          have hlt : a / get_page_size fs.header < 1 + fat_pages_of (get_page_size fs.header) := by
            rw [Nat.div_lt_iff_lt_mul hps_pos]
            have : (1 + fat_pages_of (get_page_size fs.header)) * get_page_size fs.header
                = get_page_size fs.header
                  + fat_pages_of (get_page_size fs.header) * get_page_size fs.header := by ring
            omega
          rcases fat_pages_cases (get_page_size fs.header) with hf1 | hf2
          · rw [hf1] at hlt
            exact hnot1 (by omega)
          · rw [hf2] at hlt
            rcases Nat.lt_or_ge (a / get_page_size fs.header) 2 with h2 | h2
            · exact hnot1 (by omega)
            · exact hnot2 hf2 (by omega)
      -- run the read on the flushed state
      have hlen32 : len < 4294967296 := by
        have h2 : fs.header.free_pages < 65536 := hinv.2.2.2.2.1
        have h3 : get_page_size fs.header ≤ 65536 := get_page_size_le fs.header hps8
        have h4 : fs.header.free_pages * get_page_size fs.header ≤ 65535 * 65536 :=
          Nat.mul_le_mul (by omega) h3
        have h1 : zealfs_free_space fs
            = fs.header.free_pages * get_page_size fs.header := rfl
        omega
      have hflush_header : (zealfs_flush fs' fd₁).header = fs'.header := rfl
      have hflush_fat : (zealfs_flush fs' fd₁).fat = fs'.fat := rfl
      unfold zealfs_read
      rw [if_neg hl0]
      simp only [hflush_header, hflush_fat, hpseq]
      have hrem : (fd₁.entry.size + (2 ^ 64 - 0 % 2 ^ 64)) % 4294967296 = len := by
        show (len + (2 ^ 64 - 0 % 2 ^ 64)) % 4294967296 = len
        rw [Nat.zero_mod, Nat.sub_zero,
          show (2 : Nat) ^ 64 = 4294967296 * 4294967296 from by norm_num,
          Nat.add_mul_mod_self_right]
        exact Nat.mod_eq_of_lt hlen32
      rw [hrem, if_neg (by omega), Nat.zero_div, Nat.zero_mod]
      have hwalk : fatWalk fs'.fat fd₁.entry.start_page 0 = fd.entry.start_page := rfl
      rw [hwalk]
      rw [h_read (zealfs_flush fs' fd₁).disk hagree len (le_refl len)]

/-- Witness for C3: the round trip at the concrete 2 KiB session `fsFix`
with a 300-byte buffer (a write spanning two pages). -/
theorem zealfs_write_flush_read_roundtrip_witness :
    (SessionInv fsFix ∧ FreshFd fsFix fdFix ∧ 300 ≤ zealfs_free_space fsFix) ∧
    writeTotal (zealfs_write fsFix fdFix bufFix 300 0) = some 300 ∧
    writeFlushRead fsFix fdFix bufFix 300 = some ((List.range 300).map bufFix) := by
  have h1 : SessionInv fsFix := by
    unfold SessionInv InvCore
    decide
  have h2 : FreshFd fsFix fdFix := by
    unfold FreshFd
    decide
  have h3 : (300 : Nat) ≤ zealfs_free_space fsFix := by decide
  exact ⟨⟨h1, h2, h3⟩, zealfs_write_flush_read_roundtrip fsFix fdFix bufFix 300 h1 h2 h3⟩

/-- Claim C4 (counterexample): on the session `fsFix` (free space 1280
bytes), a write of `free_space() + 1 = 1281` bytes on a fresh file
succeeds and returns 1281, both at offset 1 and at the page-aligned
offset 0 — the capacity check credits the free bytes of the (already
allocated) landing page at every offset, so "one more byte than
`free_space()` returns NoSpace" is false. -/
theorem zealfs_write_nospace_cex :
    SessionInv fsFix ∧ FreshFd fsFix fdFix ∧
    zealfs_free_space fsFix + 1 = 1281 ∧
    writeTotal (zealfs_write fsFix fdFix bufFix 1281 1) = some 1281 ∧
    writeTotal (zealfs_write fsFix fdFix bufFix 1281 0) = some 1281 := by
  refine ⟨?_, ?_, by decide, by decide, by decide⟩
  · unfold SessionInv InvCore
    decide
  · unfold FreshFd
    decide

/-- Claim C4 (amended): the capacity check `zealfs_write` applies is
`free_space() + (page_size − offset_in_page) ≥ size`, so any request
exceeding that bound fails with `-ENOSPC` (-28); and at offset 0 on a
freshly created file a write of exactly `free_space()` bytes succeeds.
(Since `offset_in_page < page_size`, the check always credits at least
one byte of landing-page slack, so a `free_space() + 1`-byte request is
never rejected by it — see the counterexample.) -/
theorem zealfs_write_nospace_spec :
    (∀ (fs : zealfs_state) (fd : zealfs_fd_t) (buf : Nat → Nat),
      SessionInv fs → FreshFd fs fd →
      writeTotal (zealfs_write fs fd buf (zealfs_free_space fs) 0)
        = some (zealfs_free_space fs)) ∧
    (∀ (fs : zealfs_state) (fd : zealfs_fd_t) (buf : Nat → Nat) (size offset : Nat),
      zealfs_free_space fs + (get_page_size fs.header - offset % get_page_size fs.header)
          < size →
      zealfs_write fs fd buf size offset = .error (-28)) := by
  constructor
  · intro fs fd buf hs hf
    obtain ⟨fs', h_run, _, _, _, _⟩ :=
      zealfs_write_fresh fs fd buf (zealfs_free_space fs) hs hf (le_refl _)
    rw [h_run]
    rfl
  · intro fs fd buf size offset hover
    have hsz : ¬ size = 0 := by omega
    unfold zealfs_write
    rw [if_neg hsz]
    simp only [if_pos hover]

/-- Witness for the amended C4 theorem: on `fsFix`, writing exactly
`free_space() = 1280` bytes at offset 0 succeeds, and a 1537-byte request
(larger than free space plus a whole page) fails with `-ENOSPC`. -/
theorem zealfs_write_nospace_spec_witness :
    (SessionInv fsFix ∧ FreshFd fsFix fdFix ∧
      writeTotal (zealfs_write fsFix fdFix bufFix (zealfs_free_space fsFix) 0)
        = some (zealfs_free_space fsFix)) ∧
    (zealfs_free_space fsFix
        + (get_page_size fsFix.header - 0 % get_page_size fsFix.header) < 1537 ∧
      zealfs_write fsFix fdFix bufFix 1537 0 = .error (-28)) := by
  have h1 : SessionInv fsFix := by
    unfold SessionInv InvCore
    decide
  have h2 : FreshFd fsFix fdFix := by
    unfold FreshFd
    decide
  exact ⟨⟨h1, h2, zealfs_write_nospace_spec.1 fsFix fdFix bufFix h1 h2⟩,
    by decide, zealfs_write_nospace_spec.2 fsFix fdFix bufFix 1537 0 (by decide)⟩

/-- Claim C5 (counterexample): reading 1 byte at offset 1 from a file of
size 0 returns count 1, not 0 — the clamp `entry.size - offset` is a
32-bit subtraction that wraps around when `offset > entry.size`. -/
theorem zealfs_read_past_end_cex :
    fdFix.entry.size = 0 ∧ (zealfs_read fsFix fdFix 1 1).2 = 1 :=
  ⟨rfl, by decide⟩

/-- Claim C5 (amended): under the source's own precondition
`assert(offset <= entry->size)` (and the entry size fitting 32 bits), the
requested size is clamped to `entry.size − offset` — the returned count is
`min size (entry.size − offset)` and a read starting exactly at the end of
the file transfers nothing.  Without that precondition the clamp wraps
(see the counterexample). -/
theorem zealfs_read_clamp_spec (fs : zealfs_state) (fd : zealfs_fd_t) (size offset : Nat)
    (hoff : offset ≤ fd.entry.size) (h32 : fd.entry.size < 4294967296) :
    (zealfs_read fs fd size offset).2 = min size (fd.entry.size - offset) ∧
    (offset = fd.entry.size → (zealfs_read fs fd size offset).1 = []) := by
  by_cases hs0 : size = 0
  · subst hs0
    constructor
    · simp [zealfs_read]
    · intro _
      simp [zealfs_read]
  · have hrem : (fd.entry.size + (2 ^ 64 - offset % 2 ^ 64)) % 4294967296
        = fd.entry.size - offset := by
      rw [two_pow_64_eq]
      omega
    have h2 : (zealfs_read fs fd size offset).2
        = (if fd.entry.size - offset < size then fd.entry.size - offset else size) := by
      unfold zealfs_read
      rw [if_neg hs0, hrem]
    have h1 : (zealfs_read fs fd size offset).1
        = readLoop (get_page_size fs.header) fs.disk fs.fat
            (if fd.entry.size - offset < size then fd.entry.size - offset else size)
            (fatWalk fs.fat fd.entry.start_page (offset / get_page_size fs.header))
            (offset % get_page_size fs.header)
            (if fd.entry.size - offset < size then fd.entry.size - offset else size) := by
      unfold zealfs_read
      rw [if_neg hs0, hrem]
    constructor
    · rw [h2]
      split_ifs with h
      · omega
      · omega
    · intro heq
      rw [h1]
      have h0 : fd.entry.size - offset = 0 := by omega
      rw [h0]
      have hif : (if (0 : Nat) < size then (0 : Nat) else size) = 0 := by
        split_ifs with h
        · rfl
        · omega
      rw [hif]
      rfl

/-- Witness for the amended C5 theorem: reading 500 bytes at offset 300 of
a 300-byte file on `fsFix` returns count `min 500 (300 − 300) = 0` and no
bytes. -/
theorem zealfs_read_clamp_spec_witness :
    ((300 : Nat) ≤ fdSized.entry.size ∧ fdSized.entry.size < 4294967296) ∧
    ((zealfs_read fsFix fdSized 500 300).2 = min 500 (fdSized.entry.size - 300) ∧
      ((300 : Nat) = fdSized.entry.size → (zealfs_read fsFix fdSized 500 300).1 = [])) :=
  ⟨⟨by decide, by decide⟩,
    zealfs_read_clamp_spec fsFix fdSized 500 300 (by decide) (by decide)⟩

/-- Claim C6 (code bug): on the session `fsDirFix`, whose directory chain
is page 3 (empty) → page 4 (one occupied entry), `rmdir`'s page loop does
return `-ENOTEMPTY` (-39), but it has already freed the empty leading
page before noticing the occupied entry: page 3's bitmap bit is cleared,
`free_pages` is incremented and page 3's FAT link (which pointed to page
4) is zeroed — the session caches are NOT unchanged, contradicting the
claim that pages are freed only when every page of the chain is empty. -/
theorem zealfs_rmdir_frees_pages_before_notempty :
    (rmdirPages (get_page_size fsDirFix.header) (get_dir_max_entries fsDirFix.header)
        10 fsDirFix fdDirFix.entry.start_page).2 = some (-39) ∧
    Nat.testBit (fsDirFix.disk 1024) 7 = true ∧
    bitGet fsDirFix.header 3 = true ∧
    bitGet (rmdirPages (get_page_size fsDirFix.header) (get_dir_max_entries fsDirFix.header)
        10 fsDirFix fdDirFix.entry.start_page).1.header 3 = false ∧
    (rmdirPages (get_page_size fsDirFix.header) (get_dir_max_entries fsDirFix.header)
        10 fsDirFix fdDirFix.entry.start_page).1.header.free_pages
      = fsDirFix.header.free_pages + 1 ∧
    fsDirFix.fat 3 = 4 ∧
    (rmdirPages (get_page_size fsDirFix.header) (get_dir_max_entries fsDirFix.header)
        10 fsDirFix fdDirFix.entry.start_page).1.fat 3 = 0 := by
  refine ⟨by decide, by decide, by decide, by decide, by decide, by decide, by decide⟩

/-- Claim C7 (code bug): on the session `fsDirFix` the directory chain is
page 3 → page 4 and the only occupied entry lives on the second page
(byte 0x80 at address 1024), yet `readdir` with room for 16 entries
returns 0 entries and an empty list: its loop follows the FAT in
`current_page` but keeps reading the entry array at the unchanged
`fd->entry_addr`, so entries on the second and later pages are never
produced. -/
theorem zealfs_readdir_misses_chain_pages :
    Nat.testBit (fsDirFix.disk (4 * get_page_size fsDirFix.header)) 7 = true ∧
    fsDirFix.fat fdDirFix.entry.start_page = 4 ∧
    (zealfs_readdir 10 fsDirFix fdDirFix 16).1 = [] ∧
    (zealfs_readdir 10 fsDirFix fdDirFix 16).2 = 0 := by
  refine ⟨by decide, by decide, by decide, by decide⟩

/-- Claim C8 (counterexample): the entry of `mbrFix` is active (its
boot-flag bit is set), yet re-encoding it after parsing is not
byte-identical outside the CHS bytes: byte 0 (the boot flag, 0x80 on
disk) is written back as 0x00. -/
theorem mbr_roundtrip_cex :
    (disk_parse_mbr_entry mbrFix 0).active = true ∧
    (disk_write_mbr_entry (disk_parse_mbr_entry mbrFix 0)).getD 0 0
      ≠ mbrFix (446 + 0 * 16 + 0) := by
  exact ⟨by decide, by decide⟩

/-- Claim C8 (amended): parsing an MBR entry and re-encoding it preserves
the type byte (offset 4) and the LBA/size bytes (offsets 8–15),
canonicalises the CHS bytes (offsets 1–3 and 5–7) to 0xFF, and writes the
boot-flag byte (offset 0) as 0x00 — so the region is byte-identical only
outside the CHS *and* boot-flag bytes; and an entry is parsed as active
iff its boot-flag bit, type byte, start LBA or sector count is
non-zero. -/
theorem mbr_roundtrip_spec (mbr : Nat → Nat) (i : Nat)
    (hb : ∀ k < 16, mbr (446 + i * 16 + k) < 256) :
    ((disk_write_mbr_entry (disk_parse_mbr_entry mbr i)).getD 4 0
        = mbr (446 + i * 16 + 4) ∧
      ∀ k, 8 ≤ k → k < 16 →
        (disk_write_mbr_entry (disk_parse_mbr_entry mbr i)).getD k 0
          = mbr (446 + i * 16 + k)) ∧
    (∀ k ∈ [1, 2, 3, 5, 6, 7],
      (disk_write_mbr_entry (disk_parse_mbr_entry mbr i)).getD k 0 = 255) ∧
    (disk_write_mbr_entry (disk_parse_mbr_entry mbr i)).getD 0 0 = 0 ∧
    ((disk_parse_mbr_entry mbr i).active = true ↔
      (Nat.testBit (mbr (446 + i * 16 + 0)) 7 = true ∨
        mbr (446 + i * 16 + 4) ≠ 0 ∨
        (mbr (446 + i * 16 + 8) ≠ 0 ∨ mbr (446 + i * 16 + 9) ≠ 0 ∨
          mbr (446 + i * 16 + 10) ≠ 0 ∨ mbr (446 + i * 16 + 11) ≠ 0) ∨
        (mbr (446 + i * 16 + 12) ≠ 0 ∨ mbr (446 + i * 16 + 13) ≠ 0 ∨
          mbr (446 + i * 16 + 14) ≠ 0 ∨ mbr (446 + i * 16 + 15) ≠ 0))) := by
  have hb4 := hb 4 (by omega)
  have hb8 := hb 8 (by omega)
  have hb9 := hb 9 (by omega)
  have hb10 := hb 10 (by omega)
  have hb11 := hb 11 (by omega)
  have hb12 := hb 12 (by omega)
  have hb13 := hb 13 (by omega)
  have hb14 := hb 14 (by omega)
  have hb15 := hb 15 (by omega)
  refine ⟨⟨?_, ?_⟩, ?_, ?_, ?_⟩
  · simp only [disk_write_mbr_entry, disk_parse_mbr_entry, List.getD_cons_succ,
      List.getD_cons_zero]
    omega
  · intro k hk8 hk16
    interval_cases k <;>
      simp only [disk_write_mbr_entry, disk_parse_mbr_entry, List.getD_cons_succ,
        List.getD_cons_zero] <;>
      omega
  · intro k hk
    fin_cases hk <;> rfl
  · rfl
  · have hbit : ∀ v < 256, ((v &&& 128 ≠ 0) ↔ Nat.testBit v 7 = true) := by decide
    simp only [disk_parse_mbr_entry, Bool.or_eq_true, decide_eq_true_eq]
    rw [hbit (mbr (446 + i * 16 + 0)) (hb 0 (by omega))]
    constructor
    · rintro (((h | h) | h) | h)
      · exact Or.inl h
      · exact Or.inr (Or.inl h)
      · refine Or.inr (Or.inr (Or.inl ?_))
        omega
      · refine Or.inr (Or.inr (Or.inr ?_))
        omega
    · rintro (h | h | h | h)
      · exact Or.inl (Or.inl (Or.inl h))
      · exact Or.inl (Or.inl (Or.inr h))
      · refine Or.inl (Or.inr ?_)
        omega
      · refine Or.inr ?_
        omega

/-- Witness for the amended C8 theorem: its conclusion instantiated at the
concrete MBR `mbrFix` and entry 0. -/
theorem mbr_roundtrip_spec_witness :
    (∀ k < 16, mbrFix (446 + 0 * 16 + k) < 256) ∧
    (((disk_write_mbr_entry (disk_parse_mbr_entry mbrFix 0)).getD 4 0
        = mbrFix (446 + 0 * 16 + 4) ∧
      ∀ k, 8 ≤ k → k < 16 →
        (disk_write_mbr_entry (disk_parse_mbr_entry mbrFix 0)).getD k 0
          = mbrFix (446 + 0 * 16 + k)) ∧
    (∀ k ∈ [1, 2, 3, 5, 6, 7],
      (disk_write_mbr_entry (disk_parse_mbr_entry mbrFix 0)).getD k 0 = 255) ∧
    (disk_write_mbr_entry (disk_parse_mbr_entry mbrFix 0)).getD 0 0 = 0 ∧
    ((disk_parse_mbr_entry mbrFix 0).active = true ↔
      (Nat.testBit (mbrFix (446 + 0 * 16 + 0)) 7 = true ∨
        mbrFix (446 + 0 * 16 + 4) ≠ 0 ∨
        (mbrFix (446 + 0 * 16 + 8) ≠ 0 ∨ mbrFix (446 + 0 * 16 + 9) ≠ 0 ∨
          mbrFix (446 + 0 * 16 + 10) ≠ 0 ∨ mbrFix (446 + 0 * 16 + 11) ≠ 0) ∨
        (mbrFix (446 + 0 * 16 + 12) ≠ 0 ∨ mbrFix (446 + 0 * 16 + 13) ≠ 0 ∨
          mbrFix (446 + 0 * 16 + 14) ≠ 0 ∨ mbrFix (446 + 0 * 16 + 15) ≠ 0)))) :=
  ⟨by decide, mbr_roundtrip_spec mbrFix 0 (by decide)⟩

theorem disk_find_free_partition_congr (d₁ d₂ : disk_info_t)
    (h1 : d₁.has_mbr = d₂.has_mbr) (h2 : d₁.staged_partitions = d₂.staged_partitions) :
    disk_find_free_partition d₁ = disk_find_free_partition d₂ := by
  unfold disk_find_free_partition dpart
  rw [h1, h2]

theorem applyOp_committed (d : disk_info_t) (op : StagingOp) :
    (applyOp d op).mbr = d.mbr ∧ (applyOp d op).partitions = d.partitions ∧
    ((applyOp d op).has_staged_changes = false → applyOp d op = d) := by
  cases op with
  | alloc lba sectors =>
    simp only [applyOp]
    simp only [disk_allocate_partition]
    split_ifs with h1 h2 h3
    · exact ⟨rfl, rfl, fun _ => rfl⟩
    · exact ⟨rfl, rfl, fun _ => rfl⟩
    · exact ⟨rfl, rfl, fun _ => rfl⟩
    · exact ⟨rfl, rfl, fun hc => absurd hc (by decide)⟩
  | fmt i =>
    simp only [applyOp]
    simp only [disk_format_partition]
    split_ifs with h1 h2
    · exact ⟨rfl, rfl, fun _ => rfl⟩
    · exact ⟨rfl, rfl, fun _ => rfl⟩
    · exact ⟨rfl, rfl, fun hc => absurd hc (by decide)⟩
  | del i =>
    simp only [applyOp]
    simp only [disk_delete_partition]
    split_ifs with h1 h2 h3 <;>
      first
        | exact ⟨rfl, rfl, fun _ => rfl⟩
        | exact ⟨rfl, rfl, fun hc => hc.elim⟩

theorem applyOps_committed (d : disk_info_t) (ops : List StagingOp) :
    ∀ e : disk_info_t, e.mbr = d.mbr → e.partitions = d.partitions →
      (e.has_staged_changes = false → e = d) →
      (applyOps e ops).mbr = d.mbr ∧ (applyOps e ops).partitions = d.partitions ∧
      ((applyOps e ops).has_staged_changes = false → applyOps e ops = d) := by
  induction ops with
  | nil =>
    intro e h1 h2 h3
    exact ⟨h1, h2, h3⟩
  | cons op ops ih =>
    intro e h1 h2 h3
    have hfold : applyOps e (op :: ops) = applyOps (applyOp e op) ops := rfl
    rw [hfold]
    obtain ⟨g1, g2, g3⟩ := applyOp_committed e op
    refine ih (applyOp e op) (g1.trans h1) (g2.trans h2) ?_
    intro hf
    have he : applyOp e op = e := g3 hf
    rw [he] at hf ⊢
    exact h3 hf

theorem disk_revert_changes_flag_true (d : disk_info_t)
    (h : d.has_staged_changes = true) :
    disk_revert_changes d
      = { valid := d.valid, has_mbr := d.has_mbr, mbr := d.mbr, partitions := d.partitions,
          has_staged_changes := false, staged_mbr := d.mbr,
          staged_partitions := d.partitions,
          free_part_idx := disk_find_free_partition
            { valid := d.valid, has_mbr := d.has_mbr, mbr := d.mbr,
              partitions := d.partitions, has_staged_changes := false,
              staged_mbr := d.mbr, staged_partitions := d.partitions,
              free_part_idx := d.free_part_idx } } := by
  unfold disk_revert_changes
  rw [h]
  rfl

/-- Claim C9: after any sequence of staging operations on a clean disk
(staged view equal to the committed one, no staged changes pending, no
buffers on the committed entries, `free_part_idx` consistent),
`disk_revert_changes` restores the staged MBR and staged partition table
to the committed ones byte-for-byte, leaves the committed view untouched,
clears `has_staged_changes`, leaves every staged slot without an attached
buffer, and leaves `free_part_idx` equal to a fresh
`disk_find_free_partition` of the resulting record. -/
theorem disk_revert_restores_staged (d : disk_info_t) (ops : List StagingOp)
    (h0 : d.has_staged_changes = false)
    (hmbr : d.staged_mbr = d.mbr)
    (hparts : d.staged_partitions = d.partitions)
    (hbuf : ∀ p ∈ d.partitions, p.data = none)
    (hfree : d.free_part_idx = disk_find_free_partition d) :
    (disk_revert_changes (applyOps d ops)).staged_mbr = d.mbr ∧
    (disk_revert_changes (applyOps d ops)).staged_partitions = d.partitions ∧
    (disk_revert_changes (applyOps d ops)).has_staged_changes = false ∧
    (disk_revert_changes (applyOps d ops)).mbr = d.mbr ∧
    (disk_revert_changes (applyOps d ops)).partitions = d.partitions ∧
    (∀ p ∈ (disk_revert_changes (applyOps d ops)).staged_partitions, p.data = none) ∧
    (disk_revert_changes (applyOps d ops)).free_part_idx
      = disk_find_free_partition (disk_revert_changes (applyOps d ops)) := by
  obtain ⟨g1, g2, g3⟩ := applyOps_committed d ops d rfl rfl (fun _ => rfl)
  by_cases hf : (applyOps d ops).has_staged_changes = false
  · have he : applyOps d ops = d := g3 hf
    rw [he]
    have hrev : disk_revert_changes d = d := by
      unfold disk_revert_changes
      rw [h0]
      rfl
    rw [hrev]
    exact ⟨hmbr, hparts, h0, rfl, rfl, fun p hp => hbuf p (hparts ▸ hp), hfree⟩
  · have hft : (applyOps d ops).has_staged_changes = true := by
      revert hf
      cases (applyOps d ops).has_staged_changes <;> simp
    rw [disk_revert_changes_flag_true (applyOps d ops) hft]
    refine ⟨g1, g2, rfl, g1, g2, ?_, ?_⟩
    · intro p hp
      have hp' : p ∈ (applyOps d ops).partitions := hp
      rw [g2] at hp'
      exact hbuf p hp'
    · exact disk_find_free_partition_congr _ _ rfl rfl

/-- Witness for C9: the clean disk `dFix` taken through an
allocate/format/delete sequence and reverted. -/
theorem disk_revert_restores_staged_witness :
    (dFix.has_staged_changes = false ∧ dFix.staged_mbr = dFix.mbr ∧
      dFix.staged_partitions = dFix.partitions ∧
      (∀ p ∈ dFix.partitions, p.data = none) ∧
      dFix.free_part_idx = disk_find_free_partition dFix) ∧
    ((disk_revert_changes (applyOps dFix
        [StagingOp.alloc 2048 64, StagingOp.fmt 0, StagingOp.del 0])).staged_mbr
        = dFix.mbr ∧
      (disk_revert_changes (applyOps dFix
        [StagingOp.alloc 2048 64, StagingOp.fmt 0, StagingOp.del 0])).staged_partitions
        = dFix.partitions ∧
      (disk_revert_changes (applyOps dFix
        [StagingOp.alloc 2048 64, StagingOp.fmt 0, StagingOp.del 0])).has_staged_changes
        = false ∧
      (disk_revert_changes (applyOps dFix
        [StagingOp.alloc 2048 64, StagingOp.fmt 0, StagingOp.del 0])).mbr = dFix.mbr ∧
      (disk_revert_changes (applyOps dFix
        [StagingOp.alloc 2048 64, StagingOp.fmt 0, StagingOp.del 0])).partitions
        = dFix.partitions ∧
      (∀ p ∈ (disk_revert_changes (applyOps dFix
        [StagingOp.alloc 2048 64, StagingOp.fmt 0, StagingOp.del 0])).staged_partitions,
        p.data = none) ∧
      (disk_revert_changes (applyOps dFix
        [StagingOp.alloc 2048 64, StagingOp.fmt 0, StagingOp.del 0])).free_part_idx
        = disk_find_free_partition (disk_revert_changes (applyOps dFix
            [StagingOp.alloc 2048 64, StagingOp.fmt 0, StagingOp.del 0]))) := by
  have h0 : dFix.has_staged_changes = false := rfl
  have hmbr : dFix.staged_mbr = dFix.mbr := rfl
  have hparts : dFix.staged_partitions = dFix.partitions := rfl
  have hbuf : ∀ p ∈ dFix.partitions, p.data = none := by decide
  have hfree : dFix.free_part_idx = disk_find_free_partition dFix := by decide
  exact ⟨⟨h0, hmbr, hparts, hbuf, hfree⟩,
    disk_revert_restores_staged dFix [StagingOp.alloc 2048 64, StagingOp.fmt 0,
      StagingOp.del 0] h0 hmbr hparts hbuf hfree⟩

/-- Claim C10: `disk_delete_partition` called with an index outside
[0, 3] or naming an inactive staged slot returns the disk record entirely
unchanged — no staged MBR byte, no partition entry, no flag and no
`free_part_idx` is modified. -/
theorem disk_delete_partition_frame (d : disk_info_t) (i : Int)
    (h : i < 0 ∨ 4 ≤ i ∨ (dpart d i.toNat).active = false) :
    disk_delete_partition d i = d := by
  unfold disk_delete_partition
  by_cases h1 : (!d.valid) = true ∨ i < 0 ∨ 4 ≤ i
  · rw [if_pos h1]
  · rw [if_neg h1]
    have hact : (dpart d i.toNat).active = false := by
      rcases h with h | h | h
      · exact absurd (Or.inr (Or.inl h)) h1
      · exact absurd (Or.inr (Or.inr h)) h1
      · exact h
    have hcond : (!(dpart d i.toNat).active) = true := by
      rw [hact]
      rfl
    simp only [hcond, reduceIte]

/-- Witness for C10: deleting the (inactive) staged slot 2 of `dFix`
leaves the record unchanged. -/
theorem disk_delete_partition_frame_witness :
    ((2 : Int) < 0 ∨ (4 : Int) ≤ 2 ∨ (dpart dFix (2 : Int).toNat).active = false) ∧
    disk_delete_partition dFix 2 = dFix :=
  ⟨by decide, disk_delete_partition_frame dFix 2 (by decide)⟩

end ZealDiskTool
